import Mathlib

/-!
# Verification of the jsondiff watcher's filtering and diff engine

This file gives a shallow embedding of the core of `src/jsondiff/jsondiff.py`
(the `JSONDiffWatcher` class): the JSON data model, the path filter
(`_apply_path_filter`), the key/value filter (`filter_json` and
`_find_and_filter_key`), and the per-tick state handling of `run` /
`display_diff`.  The structural diff itself is performed in the source by the
third-party `DeepDiff` library, which is not part of this repository; the
diff engine is therefore modelled from the specification (§4.4) and marked
as such below.

Python conventions that the embedding reproduces:
* a parsed JSON document is one of `None`, `bool`, `int`, `str`, `list`,
  `dict` (JSON floats do not occur in any property checked here, so numbers
  are embedded as integers);
* Python `None` is both JSON `null` and the "absent" result used by the
  filters, so it is embedded as `JsonValue.null`;
* Python truthiness (`if filtered:`, `if previous:`) is embedded by
  `pyTruthy`;
* the only exception the filter code can raise is `AttributeError`, from
  calling `.get` on a value that is not a `dict`; fallible functions return
  `Except Unit _` where `Except.error ()` is that exception.
-/

namespace Jsondiff

/-- A parsed JSON document as the Python code sees it.  `null` is Python
`None` (which also stands for "absent" results), `obj` is a `dict` as an
insertion-ordered association list, `arr` is a `list`.  Numbers are embedded
as integers; no claim involves a float. -/
inductive JsonValue where
  | null
  | bool (b : Bool)
  | num (n : Int)
  | str (s : String)
  | arr (items : List JsonValue)
  | obj (entries : List (String × JsonValue))
deriving Repr

/-- Python truthiness of a parsed JSON value: `None`, `False`, `0`, `""`,
`[]` and `{}` are falsy, everything else is truthy. -/
def pyTruthy : JsonValue → Bool
  | .null => false
  | .bool b => b
  | .num n => n != 0
  | .str s => !(s == "")
  | .arr l => !l.isEmpty
  | .obj kvs => !kvs.isEmpty

/-- Python `d.get(k, default)` on a dict. -/
def dictGet (kvs : List (String × JsonValue)) (k : String) (dflt : JsonValue) :
    JsonValue :=
  (List.lookup k kvs).getD dflt

mutual

/-- Python `repr` of a parsed JSON value, as used (via `str`) by the value
match of the key filter.  Strings render between single quotes; the escaping
Python applies to quotes, backslashes and non-printable characters inside a
string is not reproduced (no claim involves such a string). -/
def pyRepr : JsonValue → String
  | .null => "None"
  | .bool true => "True"
  | .bool false => "False"
  | .num n => toString n
  | .str s => "'" ++ s ++ "'"
  | .arr l => "[" ++ pyReprList l ++ "]"
  | .obj kvs => "\x7b" ++ pyReprObj kvs ++ "\x7d"

/-- Comma-separated `repr` of the elements of a Python list. -/
def pyReprList : List JsonValue → String
  | [] => ""
  | [x] => pyRepr x
  | x :: y :: rest => pyRepr x ++ ", " ++ pyReprList (y :: rest)

/-- Comma-separated `repr` of the items of a Python dict. -/
def pyReprObj : List (String × JsonValue) → String
  | [] => ""
  | [(k, v)] => "'" ++ k ++ "': " ++ pyRepr v
  | (k, v) :: kv :: rest =>
    "'" ++ k ++ "': " ++ pyRepr v ++ ", " ++ pyReprObj (kv :: rest)

end

/-- Python `str` of a parsed JSON value: a string renders as itself, any
other value as its `repr`. -/
def pyStr : JsonValue → String
  | .str s => s
  | v => pyRepr v

/-- ASCII decimal digit test. -/
def isDigitCh (c : Char) : Bool := '0' ≤ c && c ≤ '9'

/-- Holds unless the list contains two adjacent underscores. -/
def noDoubleUnderscore : List Char → Bool
  | '_' :: '_' :: _ => false
  | _ :: rest => noDoubleUnderscore rest
  | [] => true

/-- Numeric value of a list of decimal digit characters. -/
def digitsVal (l : List Char) : Int :=
  l.foldl (fun acc c => acc * 10 + ((c.toNat : Int) - (('0').toNat : Int))) 0

/-- The digit part of Python `int(str)`: non-empty, all digits or
underscores, first and last characters digits, no doubled underscore
(underscores are digit-group separators and are ignored for the value). -/
def pyIntDigits : List Char → Option Int
  | [] => none
  | l =>
    if l.all (fun c => isDigitCh c || c == '_')
        && noDoubleUnderscore l
        && (match l.head? with | some c => isDigitCh c | none => false)
        && (match l.getLast? with | some c => isDigitCh c | none => false)
    then some (digitsVal (l.filter isDigitCh))
    else none

/-- Python `int(s)` for a decimal string: whitespace is stripped from both
ends, an optional single `+`/`-` sign, then digits possibly separated by
single underscores; `none` is a raised `ValueError`.  (Unicode digits are
not modelled; no claim involves them.) -/
def pyInt (s : String) : Option Int :=
  let cs := ((s.toList.dropWhile Char.isWhitespace).reverse.dropWhile
      Char.isWhitespace).reverse
  match cs with
  | '+' :: rest => pyIntDigits rest
  | '-' :: rest => (pyIntDigits rest).map (fun n => -n)
  | rest => pyIntDigits rest

/-- The two shapes a path segment can take in `_apply_path_filter`: the
segment contains both `[` and `]` (then `key` is the text before the first
`[` and `idxText` the text between the first `[` and the first `]`, empty
when the first `]` comes first), or it is a plain field name. -/
inductive PartKind where
  | bracket (key idxText : String)
  | plain (s : String)
deriving Repr, DecidableEq

/-- Segment decomposition performed at the top of the loop body of
`_apply_path_filter` (`"[" in part and "]" in part`, `part.index`, and the
two slices). -/
def parsePart (part : String) : PartKind :=
  let cs := part.toList
  if cs.contains '[' && cs.contains ']' then
    let i := cs.findIdx (fun c => c == '[')
    let j := cs.findIdx (fun c => c == ']')
    .bracket (String.mk (cs.take i)) (String.mk ((cs.drop (i + 1)).take (j - (i + 1))))
  else .plain part

/-- The empty Python dict, the "nothing matched" result of the path filter. -/
def emptyObj : JsonValue := .obj []

/-- The segment loop of `_apply_path_filter`, one call per remaining
segment, `result` seeded with the root value.  `Except.error ()` is the
`AttributeError` raised by `result.get(key, {})` when `result` is not a
dict; `int(index_part)` failing with `ValueError` is caught by the source
(`return {}`), so it does not surface here. -/
def applySegments : JsonValue → List String → Except Unit JsonValue
  | result, [] => .ok result
  | result, part :: rest =>
    match parsePart part with
    | .plain p =>
      match result with
      | .obj kvs => applySegments (dictGet kvs p emptyObj) rest
      | _ => .ok emptyObj
    | .bracket key idxText =>
      match (if key == "" then Except.ok result
             else match result with
                  | .obj kvs => Except.ok (dictGet kvs key emptyObj)
                  | _ => Except.error ()) with
      | .error e => .error e
      | .ok r1 =>
        if idxText == "*" then
          match r1 with
          | .arr _ => applySegments r1 rest
          | _ => .ok emptyObj
        else
          match pyInt idxText with
          | none => .ok emptyObj
          | some n =>
            match r1 with
            | .arr l =>
              if h : 0 ≤ n ∧ n.toNat < l.length
              then applySegments (l.get ⟨n.toNat, h.2⟩) rest
              else .ok emptyObj
            | _ => .ok emptyObj

/-- Accumulator loop for `pySplit`: `cur` holds the current piece reversed. -/
def pySplitGo (sep : Char) (cur : List Char) : List Char → List String
  | [] => [String.mk cur.reverse]
  | c :: rest =>
    if c == sep then String.mk cur.reverse :: pySplitGo sep [] rest
    else pySplitGo sep (c :: cur) rest

/-- Python `s.split(sep)` for a one-character separator: the pieces between
occurrences of `sep`, empty pieces included (`"".split "."` is `[""]`). -/
def pySplit (s : String) (sep : Char) : List String :=
  pySplitGo sep [] s.toList

/-- The method `_apply_path_filter(data, path)`: split the path on dots and run the
segment loop. -/
def applyPathFilter (data : JsonValue) (path : String) : Except Unit JsonValue :=
  applySegments data (pySplit path '.')

/-- The value-match test `value is None or str(x) == value` shared by
`filter_json` and `_find_and_filter_key`. -/
def fvMatch (fv : Option String) (dv : JsonValue) : Bool :=
  match fv with
  | none => true
  | some v => pyStr dv == v

mutual

/-- The method `_find_and_filter_key(data, key, value)`: on a dict, a directly matching
key returns the singleton `{key: data[key]}`; otherwise (key absent, or
present with a value whose `str` does not equal `value`) every item of the
dict is searched recursively and the truthy results rebuilt into a dict,
empty results becoming `None` (`JsonValue.null`); lists are rebuilt
element-wise the same way; anything else returns `None`. -/
def findAndFilterKey : JsonValue → String → Option String → JsonValue
  | .obj kvs, key, fv =>
    (match List.lookup key kvs with
     | some dv =>
       if fvMatch fv dv then .obj [(key, dv)]
       else
         match ffkObj kvs key fv with
         | [] => .null
         | r => .obj r
     | none =>
       match ffkObj kvs key fv with
       | [] => .null
       | r => .obj r)
  | .arr l, key, fv =>
    (match ffkArr l key fv with
     | [] => .null
     | r => .arr r)
  | _, _, _ => .null

/-- The `for k, v in data.items()` loop of `_find_and_filter_key`: keep
`(k, filtered)` when `filtered` is truthy. -/
def ffkObj : List (String × JsonValue) → String → Option String →
    List (String × JsonValue)
  | [], _, _ => []
  | (k, v) :: rest, key, fv =>
    let f := findAndFilterKey v key fv
    if pyTruthy f then (k, f) :: ffkObj rest key fv else ffkObj rest key fv

/-- The `for item in data` loop of `_find_and_filter_key` for lists. -/
def ffkArr : List JsonValue → String → Option String → List JsonValue
  | [], _, _ => []
  | v :: rest, key, fv =>
    let f := findAndFilterKey v key fv
    if pyTruthy f then f :: ffkArr rest key fv else ffkArr rest key fv

end

/-- Truthiness of an optional CLI string (`None` and `""` are falsy). -/
def strTruthy : Option String → Bool
  | none => false
  | some s => !(s == "")

/-- The element test of the list branch of `filter_json`: the element is a
dict, contains the key, and (when a match value is configured) the `str` of
the stored value equals it. -/
def keyPred (key : String) (fv : Option String) (item : JsonValue) : Bool :=
  match item with
  | .obj kvs =>
    match List.lookup key kvs with
    | some dv => fvMatch fv dv
    | none => false
  | _ => false

/-- The method `filter_json(data)` with the watcher configuration
`filter_path = fp`, `filter_key = fk`, `filter_value = fv`.  When neither
filter is truthy the data is returned unchanged; otherwise the path filter
runs first (when truthy), then the key filter: a list keeps the matching
elements, a dict with the key present becomes the singleton or the empty
dict, a dict without the key is searched recursively, and any other value
is returned as it is. -/
def filterJson (fp fk fv : Option String) (data : JsonValue) :
    Except Unit JsonValue :=
  if !(strTruthy fp || strTruthy fk) then .ok data
  else
    match (match fp with
           | some s => if !(s == "") then applyPathFilter data s else .ok data
           | none => .ok data) with
    | .error e => .error e
    | .ok result =>
      .ok (match fk with
        | some key =>
          if !(key == "") then
            match result with
            | .arr l => .arr (l.filter (keyPred key fv))
            | .obj kvs =>
              (match List.lookup key kvs with
               | some dv => if fvMatch fv dv then .obj [(key, dv)] else .obj []
               | none => findAndFilterKey (.obj kvs) key fv)
            | other => other
          else result
        | none => result)

/-- What one call of `display_diff(current, previous)` computes before
rendering: either the "initial data" panel (when the filtered previous value
is `None`) or the pair of filtered values handed to `DeepDiff`. -/
inductive DisplayOut where
  | initial (cur : JsonValue)
  | diffed (prevF curF : JsonValue)
deriving Repr

/-- The method `display_diff(current, previous)`: filter the current value, filter the
previous value when it is truthy (`self.filter_json(previous) if previous
else None`), then branch on `previous_filtered is None`. -/
def displayDiffModel (fp fk fv : Option String) (current previous : JsonValue) :
    Except Unit DisplayOut :=
  match filterJson fp fk fv current with
  | .error e => .error e
  | .ok curF =>
    match (if pyTruthy previous then filterJson fp fk fv previous
           else Except.ok .null) with
    | .error e => .error e
    | .ok prevF =>
      .ok (match prevF with
        | .null => .initial curF
        | pf => .diffed pf curF)

/-- The state the watch loop holds across ticks: `self.previous_data` and
the file written by `save_previous`.  `JsonValue.null` stands for Python
`None`, i.e. no value held / nothing persisted yet. -/
structure WState where
  prev : JsonValue
  disk : JsonValue
deriving Repr

/-- One iteration of the `while True` loop of `run`, given the value the
fetch produced (`JsonValue.null` when `fetch_json` returned `None`): a
failed fetch leaves the state untouched and displays nothing; otherwise
`display_diff` runs (against the held previous value, or `None` on the
first tick), and both the held value and the persisted value become the raw
fetched value. -/
def tick (fp fk fv : Option String) (s : WState) (fetched : JsonValue) :
    Except Unit (WState × Option DisplayOut) :=
  match fetched with
  | .null => .ok (s, none)
  | cur =>
    match (match s.prev with
           | .null => displayDiffModel fp fk fv cur .null
           | p => displayDiffModel fp fk fv cur p) with
    | .error e => .error e
    | .ok out => .ok ({ prev := cur, disk := cur }, some out)

/-! ## The diff engine, modelled from the specification

The source computes the diff with the third-party `DeepDiff` library
(`display_diff`, the `DeepDiff(previous_filtered, current_filtered, ...)`
call); that library is not part of this repository.  The definitions below
are therefore modelled from §4.4 of the specification. -/

/-- Every key of the first object is present in the second. -/
def keysIn (c p : List (String × JsonValue)) : Bool :=
  c.all (fun kv => (List.lookup kv.1 p).isSome)

mutual

/-- Modelled from the spec: structural identity of two JSON values
(§4.4/§8, "The result is empty iff `previous` and `current` are
structurally identical"): same type tags, equal scalars, same array lengths
with structurally identical elements in the same positions, and for
objects: every key of one side present in the other (by dict lookup) with a
structurally identical value.  Key order is irrelevant for objects. -/
def jeq : JsonValue → JsonValue → Bool
  | .null, .null => true
  | .bool a, .bool b => a == b
  | .num a, .num b => a == b
  | .str a, .str b => a == b
  | .arr p, .arr c => jeqList p c
  | .obj p, .obj c => jeqObjGo p c && keysIn c p
  | _, _ => false

/-- Position-wise structural identity of two arrays (equal lengths). -/
def jeqList : List JsonValue → List JsonValue → Bool
  | [], [] => true
  | a :: xs, b :: ys => jeq a b && jeqList xs ys
  | _, _ => false

/-- Every entry of the first object has the key in the second with a
structurally identical value. -/
def jeqObjGo : List (String × JsonValue) → List (String × JsonValue) → Bool
  | [], _ => true
  | (k, pv) :: rest, c =>
    (match List.lookup k c with
     | some cv => jeq pv cv
     | none => false) && jeqObjGo rest c

end

/-- A segment of a diff path: an object key or an array index. -/
inductive Seg where
  | fld (k : String)
  | idx (i : Nat)
deriving Repr, DecidableEq

/-- A diff path: the segments from the compared root to the location. -/
abbrev DPath := List Seg

/-- The classification of one diff entry (§3 DiffResult buckets). -/
inductive DOp where
  | add (v : JsonValue)
  | remove (v : JsonValue)
  | change (old new : JsonValue)
  | listAdd (v : JsonValue)
  | listRemove (v : JsonValue)
deriving Repr

/-- One classified difference at a location. -/
abbrev DEntry := DPath × DOp

/-- Prefix an entry's path with a segment. -/
def preSeg (s : Seg) (e : DEntry) : DEntry := (s :: e.1, e.2)

/-- Modelled from the spec: keys present only in `current` become `added`
entries (§4.4, objects). -/
def addedEntries (p c : List (String × JsonValue)) : List DEntry :=
  c.filterMap (fun kv =>
    match List.lookup kv.1 p with
    | some _ => none
    | none => some ([Seg.fld kv.1], DOp.add kv.2))

/-- Modelled from the spec: positions only within `current` become
`list_added` entries, `i` the first such index (§4.4, arrays). -/
def listAddEntries : Nat → List JsonValue → List DEntry
  | _, [] => []
  | i, b :: ys => ([Seg.idx i], DOp.listAdd b) :: listAddEntries (i + 1) ys

/-- Modelled from the spec: positions only within `previous` become
`list_removed` entries, `i` the first such index (§4.4, arrays). -/
def listRemoveEntries : Nat → List JsonValue → List DEntry
  | _, [] => []
  | i, a :: xs => ([Seg.idx i], DOp.listRemove a) :: listRemoveEntries (i + 1) xs

mutual

/-- Modelled from the spec (§4.4): the recursive, order-sensitive,
path-labelled structural diff, with paths relative to the compared root.
Two objects compare by union of keys, two arrays position by position; any
other pair is a single `change` entry at the current location unless the
two values are structurally identical. -/
def diffE : JsonValue → JsonValue → List DEntry
  | .obj p, .obj c => diffObjGo p c ++ addedEntries p c
  | .arr p, .arr c => diffArrGo 0 p c
  | a, b => if jeq a b then [] else [([], DOp.change a b)]

/-- Object comparison over the keys of `previous` (§4.4): a key missing from
`current` is `removed`; a key in both recurses with the path extended by the
key. -/
def diffObjGo : List (String × JsonValue) → List (String × JsonValue) →
    List DEntry
  | [], _ => []
  | (k, pv) :: rest, c =>
    (match List.lookup k c with
     | none => [([Seg.fld k], DOp.remove pv)]
     | some cv => (diffE pv cv).map (preSeg (Seg.fld k)))
    ++ diffObjGo rest c

/-- Position-indexed array comparison (§4.4): common positions recurse with
the path extended by the index; a longer `current` yields `list_added`, a
longer `previous` yields `list_removed`. -/
def diffArrGo : Nat → List JsonValue → List JsonValue → List DEntry
  | i, [], ys => listAddEntries i ys
  | i, a :: xs, [] => ([Seg.idx i], DOp.listRemove a) :: diffArrGo (i + 1) xs []
  | i, a :: xs, b :: ys =>
    (diffE a b).map (preSeg (Seg.idx i)) ++ diffArrGo (i + 1) xs ys

end

/-- Render a later path segment: `.key` or `[index]`. -/
def renderTail : DPath → String
  | [] => ""
  | .fld k :: rest => "." ++ k ++ renderTail rest
  | .idx i :: rest => "[" ++ toString i ++ "]" ++ renderTail rest

/-- Render a diff path as the dotted/bracketed string of §3: a leading key
has no dot (`b`, `a.b[2].c`, `[2]`); the empty path (the compared root)
renders as the empty string. -/
def renderPath : DPath → String
  | [] => ""
  | .fld k :: rest => k ++ renderTail rest
  | .idx i :: rest => "[" ++ toString i ++ "]" ++ renderTail rest

/-- Modelled from the spec (§3): the classified diff result, each bucket a
mapping from rendered location path to the value(s) there. -/
structure DiffResult where
  added : List (String × JsonValue)
  removed : List (String × JsonValue)
  changed : List (String × JsonValue × JsonValue)
  listAdded : List (String × JsonValue)
  listRemoved : List (String × JsonValue)
deriving Repr

/-- The empty diff result: no detected difference. -/
def emptyDiff : DiffResult := ⟨[], [], [], [], []⟩

/-- Modelled from the spec (§4.4): `diff(previous, current)`, the entries of
`diffE` sorted into the five buckets with rendered paths. -/
def diff (a b : JsonValue) : DiffResult :=
  let es := diffE a b
  { added := es.filterMap (fun e =>
      match e.2 with | DOp.add v => some (renderPath e.1, v) | _ => none)
  , removed := es.filterMap (fun e =>
      match e.2 with | DOp.remove v => some (renderPath e.1, v) | _ => none)
  , changed := es.filterMap (fun e =>
      match e.2 with | DOp.change o n => some (renderPath e.1, o, n) | _ => none)
  , listAdded := es.filterMap (fun e =>
      match e.2 with | DOp.listAdd v => some (renderPath e.1, v) | _ => none)
  , listRemoved := es.filterMap (fun e =>
      match e.2 with | DOp.listRemove v => some (renderPath e.1, v) | _ => none) }

/-- No duplicates in a list of object keys. -/
def keysNodup : List String → Bool
  | [] => true
  | k :: rest => !(rest.contains k) && keysNodup rest

mutual

/-- Well-formedness of a JSON value as produced by a JSON parser: every
object's keys are duplicate-free, recursively. -/
def wfB : JsonValue → Bool
  | .obj kvs => keysNodup (kvs.map Prod.fst) && wfBObj kvs
  | .arr l => wfBArr l
  | _ => true

/-- Well-formedness of every value of an object. -/
def wfBObj : List (String × JsonValue) → Bool
  | [] => true
  | (_, v) :: rest => wfB v && wfBObj rest

/-- Well-formedness of every element of an array. -/
def wfBArr : List JsonValue → Bool
  | [] => true
  | v :: rest => wfB v && wfBArr rest

end

/-! ## Applying a diff back to the previous value

The round-trip property (§8) speaks of re-applying the diff entries to the
previous value; no such operation exists in the source, so it is defined
here in the obvious structural way over the relative-path entries of
`diffE`: a `change` at the current location replaces the value; at an
object, each key takes the entries below it (a `remove` drops the key) and
`add` entries append new keys; at an array, each position takes the entries
below it (a `list_remove` drops the element) and `list_add` entries append
new elements. -/

/-- The entries lying below segment `s`: those whose path starts with `s`,
with that segment stripped. -/
def selSeg (s : Seg) : List DEntry → List DEntry
  | [] => []
  | e :: rest =>
    match e.1 with
    | t :: p2 => if t = s then (p2, e.2) :: selSeg s rest else selSeg s rest
    | [] => selSeg s rest

/-- The replacement value of a `change` entry at the current location, if
any. -/
def rootChange : List DEntry → Option JsonValue
  | [] => none
  | ([], DOp.change _ n) :: _ => some n
  | _ :: rest => rootChange rest

/-- Whether the entries at the current location remove an object key. -/
def hasRootRemove (es : List DEntry) : Bool :=
  es.any (fun e => match e with | ([], DOp.remove _) => true | _ => false)

/-- Whether the entries at the current location remove an array element. -/
def hasRootListRemove (es : List DEntry) : Bool :=
  es.any (fun e => match e with | ([], DOp.listRemove _) => true | _ => false)

/-- The keys added directly at the current object, in entry order. -/
def addsOf : List DEntry → List (String × JsonValue)
  | [] => []
  | ([Seg.fld k], DOp.add v) :: rest => (k, v) :: addsOf rest
  | _ :: rest => addsOf rest

/-- The elements added directly at the current array, in entry order. -/
def listAddsOf : List DEntry → List JsonValue
  | [] => []
  | ([Seg.idx _], DOp.listAdd v) :: rest => v :: listAddsOf rest
  | _ :: rest => listAddsOf rest

mutual

/-- Apply a list of relative-path diff entries to a value: a `change` at
the current location replaces the value, otherwise the entries are pushed
down the structure. -/
def patch : JsonValue → List DEntry → JsonValue
  | a, es =>
    (rootChange es).getD
      (match a with
       | .obj kvs => .obj (patchObjGo kvs es ++ addsOf es)
       | .arr l => .arr (patchArrGo 0 l es ++ listAddsOf es)
       | other => other)

/-- Apply the entries to each key of an object, dropping removed keys. -/
def patchObjGo : List (String × JsonValue) → List DEntry →
    List (String × JsonValue)
  | [], _ => []
  | (k, v) :: rest, es =>
    let sub := selSeg (Seg.fld k) es
    if hasRootRemove sub then patchObjGo rest es
    else (k, patch v sub) :: patchObjGo rest es

/-- Apply the entries to each position of an array, dropping removed
elements. -/
def patchArrGo : Nat → List JsonValue → List DEntry → List JsonValue
  | _, [], _ => []
  | i, a :: rest, es =>
    let sub := selSeg (Seg.idx i) es
    if hasRootListRemove sub then patchArrGo (i + 1) rest es
    else patch a sub :: patchArrGo (i + 1) rest es

end

/-- Whether a value is a Python dict (a JSON Object). -/
def isObjB : JsonValue → Bool
  | .obj _ => true
  | _ => false

/-- Whether a value is a Python list (a JSON Array). -/
def isArrB : JsonValue → Bool
  | .arr _ => true
  | _ => false

/-- A path segment that never triggers `result.get`: either no bracket pair,
or an empty field prefix before the bracket.  Such segments are the ones
`_apply_path_filter` can process on any current value without raising. -/
def segKeyFree (part : String) : Bool :=
  match parsePart part with
  | .plain _ => true
  | .bracket k _ => k == ""

/-! ## Helper lemmas -/

/-- Structural induction over `JsonValue`, with membership hypotheses for
array elements and object values. -/
theorem JsonValue.inductOn (P : JsonValue → Prop)
    (h0 : P .null) (h1 : ∀ b, P (.bool b)) (h2 : ∀ n, P (.num n))
    (h3 : ∀ s, P (.str s))
    (h4 : ∀ l, (∀ v ∈ l, P v) → P (.arr l))
    (h5 : ∀ kvs, (∀ kv ∈ kvs, P kv.2) → P (.obj kvs)) :
    ∀ v, P v
  | .null => h0
  | .bool b => h1 b
  | .num n => h2 n
  | .str s => h3 s
  | .arr l => h4 l (fun v _ => JsonValue.inductOn P h0 h1 h2 h3 h4 h5 v)
  | .obj kvs => h5 kvs (fun kv _ => JsonValue.inductOn P h0 h1 h2 h3 h4 h5 kv.2)
termination_by v => sizeOf v
decreasing_by
  · have := List.sizeOf_lt_of_mem (by assumption : v ∈ l)
    simp only [JsonValue.arr.sizeOf_spec]
    omega
  · have h := List.sizeOf_lt_of_mem (by assumption : kv ∈ kvs)
    have h2 : sizeOf kv.2 < sizeOf kv := by
      obtain ⟨a, b⟩ := kv
      simp only [Prod.mk.sizeOf_spec]
      omega
    simp only [JsonValue.obj.sizeOf_spec]
    omega

/-- A lookup is `some` exactly when the key occurs in the key list. -/
theorem lookup_isSome_iff (k : String) (l : List (String × JsonValue)) :
    (List.lookup k l).isSome = true ↔ k ∈ l.map Prod.fst := by
  induction l with
  | nil => simp [List.lookup]
  | cons kv rest ih =>
    obtain ⟨k2, v⟩ := kv
    by_cases h : k = k2
    · subst h
      simp [List.lookup]
    · have hb : (k == k2) = false := by simpa using h
      simp [List.lookup, hb, ih, h]

/-- With duplicate-free keys, each entry is found by lookup. -/
theorem lookup_of_mem_nodup {k : String} {v : JsonValue}
    {l : List (String × JsonValue)} (hmem : (k, v) ∈ l)
    (hnd : keysNodup (l.map Prod.fst) = true) :
    List.lookup k l = some v := by
  induction l with
  | nil => cases hmem
  | cons kv rest ih =>
    obtain ⟨k2, v2⟩ := kv
    simp only [keysNodup, List.map_cons, Bool.and_eq_true, Bool.not_eq_true']
      at hnd
    rcases List.mem_cons.1 hmem with h | h
    · rw [Prod.mk.injEq] at h
      obtain ⟨rfl, rfl⟩ := h
      simp [List.lookup]
    · have hk : (k == k2) = false := by
        have hnotin : ¬ k2 ∈ rest.map Prod.fst := by simpa using hnd.1
        have hin : k ∈ rest.map Prod.fst := List.mem_map_of_mem Prod.fst h
        have : ¬ k = k2 := fun e => hnotin (e ▸ hin)
        simpa using this
      simp [List.lookup, hk, ih h hnd.2]

/-- Each element of a well-formed array is well-formed. -/
theorem wfBArr_mem {l : List JsonValue} (h : wfBArr l = true) {v : JsonValue}
    (hv : v ∈ l) : wfB v = true := by
  induction l with
  | nil => cases hv
  | cons a rest ih =>
    simp only [wfBArr, Bool.and_eq_true] at h
    rcases List.mem_cons.1 hv with rfl | hv2
    · exact h.1
    · exact ih h.2 hv2

/-- Each value of a well-formed object is well-formed. -/
theorem wfBObj_mem {l : List (String × JsonValue)} (h : wfBObj l = true)
    {kv : String × JsonValue} (hkv : kv ∈ l) : wfB kv.2 = true := by
  induction l with
  | nil => cases hkv
  | cons a rest ih =>
    obtain ⟨k, v⟩ := a
    simp only [wfBObj, Bool.and_eq_true] at h
    rcases List.mem_cons.1 hkv with rfl | hv2
    · exact h.1
    · exact ih h.2 hv2

/-- Element-wise structural identity is reflexive on well-formed elements. -/
theorem jeqList_refl {l : List JsonValue}
    (ih : ∀ v ∈ l, wfB v = true → jeq v v = true)
    (hwf : wfBArr l = true) : jeqList l l = true := by
  induction l with
  | nil => rfl
  | cons a rest ihl =>
    simp only [wfBArr, Bool.and_eq_true] at hwf
    simp only [jeqList, Bool.and_eq_true]
    exact ⟨ih a (List.mem_cons_self a rest) hwf.1,
      ihl (fun v hv hw => ih v (List.mem_cons_of_mem a hv) hw) hwf.2⟩

/-- Every entry of a sub-list of a duplicate-free object finds itself. -/
theorem jeqObjGo_refl {q kvs : List (String × JsonValue)}
    (hsub : ∀ kv ∈ q, kv ∈ kvs)
    (ih : ∀ kv ∈ q, wfB kv.2 = true → jeq kv.2 kv.2 = true)
    (hnd : keysNodup (kvs.map Prod.fst) = true)
    (hwfo : wfBObj kvs = true) : jeqObjGo q kvs = true := by
  induction q with
  | nil => rfl
  | cons kv rest ihq =>
    obtain ⟨k, pv⟩ := kv
    simp only [jeqObjGo, Bool.and_eq_true]
    refine ⟨?_, ihq (fun kv2 h => hsub _ (List.mem_cons_of_mem _ h))
      (fun kv2 h hw => ih _ (List.mem_cons_of_mem _ h) hw)⟩
    have hl : List.lookup k kvs = some pv :=
      lookup_of_mem_nodup (hsub _ (List.mem_cons_self _ _)) hnd
    rw [hl]
    exact ih _ (List.mem_cons_self _ _)
      (wfBObj_mem hwfo (hsub _ (List.mem_cons_self _ _)))

/-- Every key of an object is present in that object. -/
theorem keysIn_refl (kvs : List (String × JsonValue)) :
    keysIn kvs kvs = true := by
  simp only [keysIn, List.all_eq_true]
  intro kv hkv
  exact (lookup_isSome_iff _ _).2 (List.mem_map_of_mem Prod.fst hkv)

/-- Structural identity is reflexive on well-formed values. -/
theorem jeq_refl : ∀ v, wfB v = true → jeq v v = true := by
  intro v
  induction v using JsonValue.inductOn with
  | h0 => intro _; rfl
  | h1 b => intro _; simp [jeq]
  | h2 n => intro _; simp [jeq]
  | h3 s => intro _; simp [jeq]
  | h4 l ih =>
    intro hwf
    simp only [wfB] at hwf
    simpa [jeq] using jeqList_refl ih hwf
  | h5 kvs ih =>
    intro hwf
    simp only [wfB, Bool.and_eq_true] at hwf
    simp only [jeq, Bool.and_eq_true]
    exact ⟨jeqObjGo_refl (fun kv h => h) ih hwf.1 hwf.2, keysIn_refl kvs⟩

/-- The array comparison produces no entry exactly when the arrays are
position-wise structurally identical. -/
theorem diffArrGo_nil_iff {l : List JsonValue}
    (ih : ∀ a ∈ l, ∀ b, diffE a b = [] ↔ jeq a b = true) :
    ∀ i c, diffArrGo i l c = [] ↔ jeqList l c = true := by
  induction l with
  | nil =>
    intro i c
    cases c with
    | nil => simp [diffArrGo, jeqList, listAddEntries]
    | cons b ys => simp [diffArrGo, jeqList, listAddEntries]
  | cons a xs ihl =>
    intro i c
    cases c with
    | nil => simp [diffArrGo, jeqList]
    | cons b ys =>
      simp only [diffArrGo, jeqList, List.append_eq_nil, List.map_eq_nil_iff,
        Bool.and_eq_true]
      rw [ih a (List.mem_cons_self a xs) b,
        ihl (fun a2 h => ih a2 (List.mem_cons_of_mem a h)) (i + 1) ys]

/-- The object comparison over the keys of `previous` produces no entry
exactly when every key of `previous` is found with an identical value. -/
theorem diffObjGo_nil_iff {kvs : List (String × JsonValue)}
    (ih : ∀ kv ∈ kvs, ∀ b, diffE kv.2 b = [] ↔ jeq kv.2 b = true) :
    ∀ c, diffObjGo kvs c = [] ↔ jeqObjGo kvs c = true := by
  induction kvs with
  | nil => intro c; simp [diffObjGo, jeqObjGo]
  | cons kv rest ihl =>
    intro c
    obtain ⟨k, pv⟩ := kv
    simp only [diffObjGo, jeqObjGo, List.append_eq_nil, Bool.and_eq_true]
    cases hl : List.lookup k c with
    | none => simp
    | some cv =>
      simp only [List.map_eq_nil_iff]
      rw [ih (k, pv) (List.mem_cons_self _ _) cv,
        ihl (fun kv2 h => ih kv2 (List.mem_cons_of_mem _ h)) c]

/-- There is no `added` entry exactly when every key of `current` occurs in
`previous`. -/
theorem addedEntries_nil_iff (p c : List (String × JsonValue)) :
    addedEntries p c = [] ↔ keysIn c p = true := by
  simp only [addedEntries, List.filterMap_eq_nil_iff, keysIn, List.all_eq_true]
  refine forall_congr' (fun kv => forall_congr' (fun hkv => ?_))
  cases hl : List.lookup kv.1 p <;> simp [hl, Option.isSome]

/-- The diff of two values has no entry exactly when they are structurally
identical (§4.4). -/
theorem diffE_nil_iff : ∀ a b, diffE a b = [] ↔ jeq a b = true := by
  intro a
  induction a using JsonValue.inductOn with
  | h0 =>
    intro b
    cases b <;> simp [diffE, jeq]
  | h1 x =>
    intro b
    cases b <;> simp [diffE, jeq]
  | h2 x =>
    intro b
    cases b <;> simp [diffE, jeq]
  | h3 x =>
    intro b
    cases b <;> simp [diffE, jeq]
  | h4 l ih =>
    intro b
    cases b with
    | arr c => simpa [diffE, jeq] using diffArrGo_nil_iff ih 0 c
    | null => simp [diffE, jeq]
    | bool x => simp [diffE, jeq]
    | num x => simp [diffE, jeq]
    | str x => simp [diffE, jeq]
    | obj c => simp [diffE, jeq]
  | h5 kvs ih =>
    intro b
    cases b with
    | obj c =>
      simp only [diffE, jeq, List.append_eq_nil, Bool.and_eq_true]
      rw [diffObjGo_nil_iff (fun kv h => ih kv h) c, addedEntries_nil_iff]
    | null => simp [diffE, jeq]
    | bool x => simp [diffE, jeq]
    | num x => simp [diffE, jeq]
    | str x => simp [diffE, jeq]
    | arr c => simp [diffE, jeq]

/-- The rendered diff result is empty exactly when `diffE` has no entry. -/
theorem diff_eq_empty_iff (a b : JsonValue) :
    diff a b = emptyDiff ↔ diffE a b = [] := by
  constructor
  · intro h
    cases hd : diffE a b with
    | nil => rfl
    | cons e es =>
      exfalso
      obtain ⟨p, op⟩ := e
      cases op <;> simp [diff, hd, emptyDiff, DiffResult.mk.injEq] at h
  · intro h
    simp [diff, h, emptyDiff]

/-- A lookup hit is a member of the association list. -/
theorem lookup_mem {k : String} {v : JsonValue} {l : List (String × JsonValue)}
    (h : List.lookup k l = some v) : (k, v) ∈ l := by
  induction l with
  | nil => simp [List.lookup] at h
  | cons kv rest ih =>
    obtain ⟨k2, v2⟩ := kv
    by_cases hk : k = k2
    · subst hk
      simp [List.lookup] at h
      simp [h]
    · have hb : (k == k2) = false := by simpa using hk
      simp only [List.lookup, hb] at h
      exact List.mem_cons_of_mem _ (ih h)

/-- Selecting below a segment distributes over concatenation. -/
theorem selSeg_append (s : Seg) (es1 es2 : List DEntry) :
    selSeg s (es1 ++ es2) = selSeg s es1 ++ selSeg s es2 := by
  induction es1 with
  | nil => rfl
  | cons e rest ih =>
    obtain ⟨p, op⟩ := e
    cases p with
    | nil => simpa [selSeg] using ih
    | cons t p2 => by_cases ht : t = s <;> simp [selSeg, ht, ih]

/-- Selecting below a segment undoes prefixing with that segment. -/
theorem selSeg_map_preSeg_same (s : Seg) (es : List DEntry) :
    selSeg s (es.map (preSeg s)) = es := by
  induction es with
  | nil => rfl
  | cons e rest ih =>
    obtain ⟨p, op⟩ := e
    simp [selSeg, preSeg, ih]

/-- Selecting below a segment drops entries prefixed with another segment. -/
theorem selSeg_map_preSeg_ne {s t : Seg} (h : t ≠ s) (es : List DEntry) :
    selSeg s (es.map (preSeg t)) = [] := by
  induction es with
  | nil => rfl
  | cons e rest ih =>
    obtain ⟨p, op⟩ := e
    simp [selSeg, preSeg, h, ih]

/-- Every `list_added` entry is a singleton `idx` path at or beyond the
start index. -/
theorem listAddEntries_shape :
    ∀ i l e, e ∈ listAddEntries i l →
      ∃ j v, e = ([Seg.idx j], DOp.listAdd v) ∧ i ≤ j := by
  intro i l
  induction l generalizing i with
  | nil => intro e h; cases h
  | cons b ys ih =>
    intro e h
    rcases List.mem_cons.1 h with rfl | h2
    · exact ⟨i, b, rfl, Nat.le_refl i⟩
    · obtain ⟨j, v, he, hj⟩ := ih (i + 1) e h2
      exact ⟨j, v, he, by omega⟩

/-- Every array-diff entry has an `idx` head segment at or beyond the start
index. -/
theorem diffArrGo_shape :
    ∀ l c i e, e ∈ diffArrGo i l c →
      ∃ j rest, e.1 = Seg.idx j :: rest ∧ i ≤ j := by
  intro l
  induction l with
  | nil =>
    intro c i e h
    obtain ⟨j, v, rfl, hj⟩ := listAddEntries_shape i c e h
    exact ⟨j, [], rfl, hj⟩
  | cons a xs ih =>
    intro c i e h
    cases c with
    | nil =>
      rcases List.mem_cons.1 h with rfl | h2
      · exact ⟨i, [], rfl, Nat.le_refl i⟩
      · obtain ⟨j, rest, he, hj⟩ := ih [] (i + 1) e h2
        exact ⟨j, rest, he, by omega⟩
    | cons b ys =>
      rcases List.mem_append.1 h with h2 | h2
      · obtain ⟨e2, _, rfl⟩ := List.mem_map.1 h2
        exact ⟨i, e2.1, rfl, Nat.le_refl i⟩
      · obtain ⟨j, rest, he, hj⟩ := ih ys (i + 1) e h2
        exact ⟨j, rest, he, by omega⟩

/-- Every object-diff entry has a `fld` head naming a key of `previous`. -/
theorem diffObjGo_shape :
    ∀ p c e, e ∈ diffObjGo p c →
      ∃ k rest, e.1 = Seg.fld k :: rest ∧ k ∈ p.map Prod.fst := by
  intro p
  induction p with
  | nil => intro c e h; cases h
  | cons kv q ih =>
    obtain ⟨k0, pv0⟩ := kv
    intro c e h
    rcases List.mem_append.1 h with h2 | h2
    · revert h2
      cases List.lookup k0 c with
      | none =>
        intro h2
        rcases List.mem_cons.1 h2 with rfl | h3
        · exact ⟨k0, [], rfl, by simp⟩
        · cases h3
      | some cv =>
        intro h2
        obtain ⟨e2, _, rfl⟩ := List.mem_map.1 h2
        exact ⟨k0, e2.1, rfl, by simp⟩
    · obtain ⟨k, rest, he, hk⟩ := ih c e h2
      exact ⟨k, rest, he, List.mem_cons_of_mem _ hk⟩

/-- Every `added` entry is a singleton `fld` path whose key is absent from
`previous`. -/
theorem addedEntries_shape :
    ∀ p c e, e ∈ addedEntries p c →
      ∃ k v, e = ([Seg.fld k], DOp.add v) ∧ List.lookup k p = none := by
  intro p c e h
  obtain ⟨kv, _, hf⟩ := List.mem_filterMap.1 h
  revert hf
  cases hl : List.lookup kv.1 p with
  | none =>
    intro hf
    rw [Option.some_inj] at hf
    exact ⟨kv.1, kv.2, hf.symm, hl⟩
  | some _ => intro hf; cases hf

/-- A root entry of the fallback branch of `diffE` is a `change`. -/
theorem mem_ite_change {a b : JsonValue} {op : DOp}
    (h : ([], op) ∈ (if jeq a b = true then ([] : List DEntry)
      else [([], DOp.change a b)])) :
    ∃ o n, op = DOp.change o n := by
  split at h
  · cases h
  · rcases List.mem_cons.1 h with he | he
    · rw [Prod.mk.injEq] at he
      exact ⟨a, b, he.2⟩
    · cases he

/-- The diff of two objects has no entry at the compared root. -/
theorem diffE_obj_no_root {p c : List (String × JsonValue)} {op : DOp}
    (h : ([], op) ∈ diffE (.obj p) (.obj c)) : False := by
  rcases List.mem_append.1 h with h2 | h2
  · obtain ⟨k, rest, he, _⟩ := diffObjGo_shape p c _ h2
    cases he
  · obtain ⟨k, v, he, _⟩ := addedEntries_shape p c _ h2
    rw [Prod.mk.injEq] at he
    cases he.1

/-- The diff of two arrays has no entry at the compared root. -/
theorem diffE_arr_no_root {l c : List JsonValue} {op : DOp}
    (h : ([], op) ∈ diffE (.arr l) (.arr c)) : False := by
  obtain ⟨j, rest, he, _⟩ := diffArrGo_shape l c 0 _ h
  cases he

/-- Any entry of a diff at the compared root is a `change` (§4.4: only a
root-level type mismatch or scalar change is reported at the root itself). -/
theorem diffE_root_change {a b : JsonValue} {op : DOp}
    (h : ([], op) ∈ diffE a b) : ∃ o n, op = DOp.change o n := by
  cases a <;> cases b <;>
    first
      | exact (diffE_obj_no_root h).elim
      | exact (diffE_arr_no_root h).elim
      | (simp only [diffE] at h; exact mem_ite_change h)

/-- A diff never removes an object key at its own compared root. -/
theorem hasRootRemove_diffE (a b : JsonValue) :
    hasRootRemove (diffE a b) = false := by
  rw [hasRootRemove, List.any_eq_false]
  intro e he hp
  obtain ⟨p, op⟩ := e
  revert hp
  cases p with
  | nil =>
    obtain ⟨o, n, rfl⟩ := diffE_root_change he
    intro hp
    cases hp
  | cons s rest => intro hp; cases hp

/-- A diff never removes an array element at its own compared root. -/
theorem hasRootListRemove_diffE (a b : JsonValue) :
    hasRootListRemove (diffE a b) = false := by
  rw [hasRootListRemove, List.any_eq_false]
  intro e he hp
  obtain ⟨p, op⟩ := e
  revert hp
  cases p with
  | nil =>
    obtain ⟨o, n, rfl⟩ := diffE_root_change he
    intro hp
    cases hp
  | cons s rest => intro hp; cases hp

/-- Entries with non-empty paths carry no root replacement. -/
theorem rootChange_eq_none {es : List DEntry} (h : ∀ e ∈ es, e.1 ≠ []) :
    rootChange es = none := by
  induction es with
  | nil => rfl
  | cons e rest ih =>
    obtain ⟨p, op⟩ := e
    cases p with
    | nil => exact absurd rfl (h _ (List.mem_cons_self _ _))
    | cons s p2 =>
      have : rootChange ((s :: p2, op) :: rest) = rootChange rest := by
        cases op <;> rfl
      rw [this]
      exact ih (fun e2 he => h e2 (List.mem_cons_of_mem _ he))

/-- Patching with no entries is the identity. -/
theorem patch_nil : ∀ a, patch a [] = a := by
  intro a
  induction a using JsonValue.inductOn with
  | h0 => rfl
  | h1 b => rfl
  | h2 n => rfl
  | h3 s => rfl
  | h4 l ih =>
    have harr : ∀ i q, (∀ v ∈ q, patch v [] = v) → patchArrGo i q [] = q := by
      intro i q
      induction q generalizing i with
      | nil => intro _; rfl
      | cons a2 rest ihq =>
        intro hq
        simp only [patchArrGo, selSeg]
        rw [show hasRootListRemove [] = false from rfl]
        simp only [Bool.false_eq_true, if_false]
        rw [hq a2 (List.mem_cons_self _ _),
          ihq (i + 1) (fun v hv => hq v (List.mem_cons_of_mem _ hv))]
    show JsonValue.arr (patchArrGo 0 l [] ++ listAddsOf []) = JsonValue.arr l
    rw [harr 0 l ih]
    simp [listAddsOf]
  | h5 kvs ih =>
    have hobj : ∀ q, (∀ kv ∈ q, patch kv.2 [] = kv.2) → patchObjGo q [] = q := by
      intro q
      induction q with
      | nil => intro _; rfl
      | cons kv rest ihq =>
        intro hq
        obtain ⟨k, v⟩ := kv
        simp only [patchObjGo, selSeg]
        rw [show hasRootRemove [] = false from rfl]
        simp only [Bool.false_eq_true, if_false]
        rw [hq (k, v) (List.mem_cons_self _ _),
          ihq (fun kv2 hv => hq kv2 (List.mem_cons_of_mem _ hv))]
    show JsonValue.obj (patchObjGo kvs [] ++ addsOf []) = JsonValue.obj kvs
    rw [hobj kvs ih]
    simp [addsOf]

/-- Nothing is selected when no entry's head can equal the segment. -/
theorem selSeg_eq_nil {s : Seg} {es : List DEntry}
    (h : ∀ e ∈ es, ∀ t p2, e.1 = t :: p2 → t ≠ s) : selSeg s es = [] := by
  induction es with
  | nil => rfl
  | cons e rest ih =>
    obtain ⟨p, op⟩ := e
    cases p with
    | nil =>
      simpa [selSeg] using
        ih (fun e2 he t p2 hp => h e2 (List.mem_cons_of_mem _ he) t p2 hp)
    | cons t p2 =>
      have ht : t ≠ s := h _ (List.mem_cons_self _ _) t p2 rfl
      simpa [selSeg, ht] using
        ih (fun e2 he t2 q2 hp => h e2 (List.mem_cons_of_mem _ he) t2 q2 hp)

/-- A key absent from `previous` selects nothing from the object diff. -/
theorem selSeg_diffObjGo_not_mem {p c : List (String × JsonValue)} {k : String}
    (hk : ¬ k ∈ p.map Prod.fst) :
    selSeg (Seg.fld k) (diffObjGo p c) = [] := by
  apply selSeg_eq_nil
  intro e he t p2 hp hts
  subst hts
  obtain ⟨k2, rest2, he2, hk2⟩ := diffObjGo_shape p c e he
  rw [hp] at he2
  injection he2 with h1 _
  injection h1 with h3
  exact hk (h3 ▸ hk2)

/-- A key present in `previous` selects nothing from the `added` entries. -/
theorem selSeg_addedEntries {p c : List (String × JsonValue)} {k : String}
    (hk : (List.lookup k p).isSome = true) :
    selSeg (Seg.fld k) (addedEntries p c) = [] := by
  apply selSeg_eq_nil
  intro e he t p2 hp hts
  subst hts
  obtain ⟨k2, v, he2, hl⟩ := addedEntries_shape p c e he
  rw [he2] at hp
  injection hp with h1 _
  injection h1 with h3
  rw [h3] at hl
  rw [hl] at hk
  cases hk

/-- What the object diff holds below the key of one `previous` entry: the
removal marker when `current` lacks the key, the sub-diff otherwise. -/
theorem selSeg_diffObjGo {p c : List (String × JsonValue)} {k : String}
    {pv : JsonValue} (hnd : keysNodup (p.map Prod.fst) = true)
    (hmem : (k, pv) ∈ p) :
    selSeg (Seg.fld k) (diffObjGo p c)
      = (match List.lookup k c with
         | none => [([], DOp.remove pv)]
         | some cv => diffE pv cv) := by
  induction p with
  | nil => cases hmem
  | cons kv q ih =>
    obtain ⟨k0, pv0⟩ := kv
    simp only [List.map_cons, keysNodup, Bool.and_eq_true, Bool.not_eq_true']
      at hnd
    have hsplit : diffObjGo ((k0, pv0) :: q) c
        = (match List.lookup k0 c with
           | none => [([Seg.fld k0], DOp.remove pv0)]
           | some cv => (diffE pv0 cv).map (preSeg (Seg.fld k0)))
          ++ diffObjGo q c := rfl
    rcases List.mem_cons.1 hmem with heq | hmem2
    · rw [Prod.mk.injEq] at heq
      obtain ⟨rfl, rfl⟩ := heq
      have htail : selSeg (Seg.fld k) (diffObjGo q c) = [] :=
        selSeg_diffObjGo_not_mem (by simpa using hnd.1)
      rw [hsplit, selSeg_append, htail, List.append_nil]
      cases List.lookup k c with
      | none => simp [selSeg]
      | some cv => exact selSeg_map_preSeg_same _ _
    · have hk0 : ¬ k = k0 := by
        rintro rfl
        have hin : k ∈ q.map Prod.fst := List.mem_map_of_mem Prod.fst hmem2
        have h2 : ¬ k ∈ q.map Prod.fst := by simpa using hnd.1
        exact h2 hin
      have hkne : Seg.fld k0 ≠ Seg.fld k := by
        intro h2
        injection h2 with h3
        exact hk0 h3.symm
      have hhead : selSeg (Seg.fld k)
          (match List.lookup k0 c with
           | none => [([Seg.fld k0], DOp.remove pv0)]
           | some cv => (diffE pv0 cv).map (preSeg (Seg.fld k0))) = [] := by
        cases List.lookup k0 c with
        | none => simp [selSeg, hkne]
        | some cv => exact selSeg_map_preSeg_ne hkne _
      rw [hsplit, selSeg_append, hhead, List.nil_append]
      exact ih hnd.2 hmem2

/-- One step of `addsOf`, as a non-overlapping equation. -/
theorem addsOf_cons (e : DEntry) (rest : List DEntry) :
    addsOf (e :: rest)
      = (match e with
         | ([Seg.fld k], DOp.add v) => [(k, v)]
         | _ => []) ++ addsOf rest := by
  obtain ⟨p, op⟩ := e
  cases p with
  | nil => cases op <;> rfl
  | cons t p2 =>
    cases t with
    | fld k =>
      cases p2 with
      | nil => cases op <;> rfl
      | cons s2 p3 => cases op <;> rfl
    | idx i =>
      cases p2 with
      | nil => cases op <;> rfl
      | cons s2 p3 => cases op <;> rfl

/-- The function `addsOf` distributes over concatenation. -/
theorem addsOf_append (es1 es2 : List DEntry) :
    addsOf (es1 ++ es2) = addsOf es1 ++ addsOf es2 := by
  induction es1 with
  | nil => rfl
  | cons e rest ih =>
    rw [List.cons_append, addsOf_cons, addsOf_cons, ih, List.append_assoc]

/-- One step of `listAddsOf`, as a non-overlapping equation. -/
theorem listAddsOf_cons (e : DEntry) (rest : List DEntry) :
    listAddsOf (e :: rest)
      = (match e with
         | ([Seg.idx _], DOp.listAdd v) => [v]
         | _ => []) ++ listAddsOf rest := by
  obtain ⟨p, op⟩ := e
  cases p with
  | nil => cases op <;> rfl
  | cons t p2 =>
    cases t with
    | fld k =>
      cases p2 with
      | nil => cases op <;> rfl
      | cons s2 p3 => cases op <;> rfl
    | idx i =>
      cases p2 with
      | nil => cases op <;> rfl
      | cons s2 p3 => cases op <;> rfl

/-- The function `listAddsOf` distributes over concatenation. -/
theorem listAddsOf_append (es1 es2 : List DEntry) :
    listAddsOf (es1 ++ es2) = listAddsOf es1 ++ listAddsOf es2 := by
  induction es1 with
  | nil => rfl
  | cons e rest ih =>
    rw [List.cons_append, listAddsOf_cons, listAddsOf_cons, ih,
      List.append_assoc]

/-- The `list_added` entries reproduce exactly the appended elements. -/
theorem listAddsOf_listAddEntries : ∀ i c, listAddsOf (listAddEntries i c) = c := by
  intro i c
  induction c generalizing i with
  | nil => rfl
  | cons b ys ih =>
    rw [show listAddEntries i (b :: ys)
        = ([Seg.idx i], DOp.listAdd b) :: listAddEntries (i + 1) ys from rfl]
    rw [listAddsOf_cons, ih (i + 1)]
    rfl

/-- A prefixed sub-diff contributes no directly added object key. -/
theorem addsOf_map_preSeg_diffE (s : Seg) (a b : JsonValue) :
    addsOf ((diffE a b).map (preSeg s)) = [] := by
  have h : ∀ es : List DEntry,
      (∀ op, ([], op) ∈ es → ∃ o n, op = DOp.change o n) →
      addsOf (es.map (preSeg s)) = [] := by
    intro es
    induction es with
    | nil => intro _; rfl
    | cons e rest ih =>
      intro hr
      obtain ⟨p, op⟩ := e
      rw [List.map_cons, addsOf_cons,
        ih (fun op2 h2 => hr op2 (List.mem_cons_of_mem _ h2))]
      cases p with
      | cons t p2 => cases s <;> cases op <;> rfl
      | nil =>
        obtain ⟨o, n, rfl⟩ := hr op (List.mem_cons_self _ _)
        cases s <;> rfl
  exact h _ (fun op h2 => diffE_root_change h2)

/-- A prefixed sub-diff contributes no directly added array element. -/
theorem listAddsOf_map_preSeg_diffE (s : Seg) (a b : JsonValue) :
    listAddsOf ((diffE a b).map (preSeg s)) = [] := by
  have h : ∀ es : List DEntry,
      (∀ op, ([], op) ∈ es → ∃ o n, op = DOp.change o n) →
      listAddsOf (es.map (preSeg s)) = [] := by
    intro es
    induction es with
    | nil => intro _; rfl
    | cons e rest ih =>
      intro hr
      obtain ⟨p, op⟩ := e
      rw [List.map_cons, listAddsOf_cons,
        ih (fun op2 h2 => hr op2 (List.mem_cons_of_mem _ h2))]
      cases p with
      | cons t p2 => cases s <;> cases op <;> rfl
      | nil =>
        obtain ⟨o, n, rfl⟩ := hr op (List.mem_cons_self _ _)
        cases s <;> rfl
  exact h _ (fun op h2 => diffE_root_change h2)

/-- Entries strictly below the running index never affect later positions. -/
theorem patchArrGo_drop_low :
    ∀ (l : List JsonValue) (k : Nat) (es1 es2 : List DEntry),
      (∀ e ∈ es1, ∃ j rest, e.1 = Seg.idx j :: rest ∧ j < k) →
      patchArrGo k l (es1 ++ es2) = patchArrGo k l es2 := by
  intro l
  induction l with
  | nil => intro k es1 es2 _; rfl
  | cons a rest ih =>
    intro k es1 es2 h
    have hsel : selSeg (Seg.idx k) (es1 ++ es2) = selSeg (Seg.idx k) es2 := by
      rw [selSeg_append,
        selSeg_eq_nil (fun e he t p2 hp hts => by
          obtain ⟨j, r, hj, hlt⟩ := h e he
          rw [hp] at hj
          injection hj with h1 _
          rw [hts] at h1
          injection h1 with h3
          omega),
        List.nil_append]
    simp only [patchArrGo]
    rw [hsel, ih (k + 1) es1 es2
      (fun e he => by
        obtain ⟨j, r, hj, hlt⟩ := h e he
        exact ⟨j, r, hj, by omega⟩)]

/-- The loop `patchObjGo` rewritten through a per-key selection function. -/
theorem patchObjGo_spec {q : List (String × JsonValue)} {es : List DEntry}
    (f : String × JsonValue → List DEntry)
    (hsel : ∀ kv ∈ q, selSeg (Seg.fld kv.1) es = f kv) :
    patchObjGo q es = q.filterMap (fun kv =>
      if hasRootRemove (f kv) = true then none
      else some (kv.1, patch kv.2 (f kv))) := by
  induction q with
  | nil => rfl
  | cons kv q2 ih =>
    obtain ⟨k, v⟩ := kv
    rw [List.filterMap_cons]
    have hk := hsel (k, v) (List.mem_cons_self _ _)
    simp only [patchObjGo]
    rw [hk, ih (fun kv2 h2 => hsel kv2 (List.mem_cons_of_mem _ h2))]
    by_cases hrem : hasRootRemove (f (k, v)) = true
    · simp [hrem]
    · simp only [Bool.not_eq_true] at hrem
      simp [hrem]

/-- Membership form of the object-identity test. -/
theorem jeqObjGo_iff {q c : List (String × JsonValue)} :
    jeqObjGo q c = true ↔ ∀ kv ∈ q,
      (match List.lookup kv.1 c with
       | some cv => jeq kv.2 cv
       | none => false) = true := by
  induction q with
  | nil => simp [jeqObjGo]
  | cons kv q2 ih =>
    obtain ⟨k, v⟩ := kv
    simp only [jeqObjGo, Bool.and_eq_true, ih, List.forall_mem_cons]

/-- The object diff contributes no directly added key. -/
theorem addsOf_diffObjGo (p c : List (String × JsonValue)) :
    addsOf (diffObjGo p c) = [] := by
  induction p with
  | nil => rfl
  | cons kv q ih =>
    obtain ⟨k0, pv0⟩ := kv
    have hsplit : diffObjGo ((k0, pv0) :: q) c
        = (match List.lookup k0 c with
           | none => [([Seg.fld k0], DOp.remove pv0)]
           | some cv => (diffE pv0 cv).map (preSeg (Seg.fld k0)))
          ++ diffObjGo q c := rfl
    rw [hsplit, addsOf_append, ih, List.append_nil]
    cases List.lookup k0 c with
    | none => rfl
    | some cv => exact addsOf_map_preSeg_diffE _ _ _

/-- The `added` entries reproduce exactly the keys of `current` that are
absent from `previous`, in `current` order. -/
theorem addsOf_addedEntries (p c : List (String × JsonValue)) :
    addsOf (addedEntries p c) = c.filterMap (fun kv =>
      match List.lookup kv.1 p with
      | some _ => none
      | none => some kv) := by
  induction c with
  | nil => rfl
  | cons kv q ih =>
    simp only [addedEntries, List.filterMap_cons] at *
    cases List.lookup kv.1 p with
    | some _ => exact ih
    | none =>
      rw [addsOf_cons, ih]
      rfl

/-- An array diff holds nothing below indices before its start index. -/
theorem selSeg_diffArrGo_lt {l c : List JsonValue} {i k : Nat} (hk : k < i) :
    selSeg (Seg.idx k) (diffArrGo i l c) = [] := by
  apply selSeg_eq_nil
  intro e he t p2 hp hts
  obtain ⟨j, r, hj, hij⟩ := diffArrGo_shape l c i e he
  rw [hp] at hj
  injection hj with h1 _
  rw [hts] at h1
  injection h1 with h3
  omega

/-- Diffing against an empty `current` removes every element. -/
theorem patchArrGo_diff_remove_all :
    ∀ (xs : List JsonValue) (i : Nat),
      patchArrGo i xs (diffArrGo i xs []) = [] := by
  intro xs
  induction xs with
  | nil => intro i; rfl
  | cons a q ih =>
    intro i
    have hes : diffArrGo i (a :: q) []
        = [([Seg.idx i], DOp.listRemove a)] ++ diffArrGo (i + 1) q [] := rfl
    rw [hes]
    simp only [patchArrGo]
    have hsub : selSeg (Seg.idx i)
        ([([Seg.idx i], DOp.listRemove a)] ++ diffArrGo (i + 1) q [])
        = [([], DOp.listRemove a)] := by
      rw [selSeg_append, selSeg_diffArrGo_lt (by omega), List.append_nil]
      simp [selSeg]
    rw [hsub]
    rw [show hasRootListRemove [([], DOp.listRemove a)] = true from rfl]
    simp only [if_pos]
    rw [patchArrGo_drop_low q (i + 1) _ _ (by
      intro e he
      rcases List.mem_singleton.1 he with rfl
      exact ⟨i, [], rfl, by omega⟩)]
    exact ih (i + 1)

/-- Diffing against an empty `current` adds no element. -/
theorem listAddsOf_diffArrGo_nil :
    ∀ (xs : List JsonValue) (i : Nat),
      listAddsOf (diffArrGo i xs []) = [] := by
  intro xs
  induction xs with
  | nil => intro i; rfl
  | cons a q ih =>
    intro i
    rw [show diffArrGo i (a :: q) []
        = ([Seg.idx i], DOp.listRemove a) :: diffArrGo (i + 1) q [] from rfl]
    rw [listAddsOf_cons]
    simpa using ih (i + 1)

/-- Patching an array with its own diff against `current` rebuilds a list
position-wise structurally identical to `current`. -/
theorem patch_diffArrGo {l : List JsonValue}
    (ihv : ∀ a ∈ l, ∀ b, wfB a = true → wfB b = true →
      jeq (patch a (diffE a b)) b = true) :
    ∀ i c, wfBArr l = true → wfBArr c = true →
      jeqList (patchArrGo i l (diffArrGo i l c)
        ++ listAddsOf (diffArrGo i l c)) c = true := by
  induction l with
  | nil =>
    intro i c _ hwc
    rw [show diffArrGo i [] c = listAddEntries i c from rfl]
    rw [show patchArrGo i [] (listAddEntries i c) = [] from rfl]
    rw [listAddsOf_listAddEntries, List.nil_append]
    exact jeqList_refl (fun v hv hw => jeq_refl v hw) hwc
  | cons a xs ih =>
    intro i c hwl hwc
    simp only [wfBArr, Bool.and_eq_true] at hwl
    cases c with
    | nil =>
      rw [patchArrGo_diff_remove_all (a :: xs) i,
        listAddsOf_diffArrGo_nil (a :: xs) i]
      rfl
    | cons b ys =>
      simp only [wfBArr, Bool.and_eq_true] at hwc
      have hes : diffArrGo i (a :: xs) (b :: ys)
          = (diffE a b).map (preSeg (Seg.idx i)) ++ diffArrGo (i + 1) xs ys :=
        rfl
      rw [hes]
      simp only [patchArrGo]
      have hsub : selSeg (Seg.idx i)
          ((diffE a b).map (preSeg (Seg.idx i)) ++ diffArrGo (i + 1) xs ys)
          = diffE a b := by
        rw [selSeg_append, selSeg_map_preSeg_same,
          selSeg_diffArrGo_lt (by omega), List.append_nil]
      rw [hsub, hasRootListRemove_diffE]
      simp only [Bool.false_eq_true, if_false]
      rw [patchArrGo_drop_low xs (i + 1) _ _ (by
        intro e he
        obtain ⟨e2, _, rfl⟩ := List.mem_map.1 he
        exact ⟨i, e2.1, rfl, by omega⟩)]
      rw [listAddsOf_append, listAddsOf_map_preSeg_diffE, List.nil_append]
      simp only [List.cons_append, jeqList, Bool.and_eq_true]
      exact ⟨ihv a (List.mem_cons_self _ _) b hwl.1 hwc.1,
        ih (fun a2 h2 b2 hw1 hw2 =>
          ihv a2 (List.mem_cons_of_mem _ h2) b2 hw1 hw2) (i + 1) ys hwl.2 hwc.2⟩

/-- The diff of two objects never replaces the compared root. -/
theorem rootChange_diffE_obj (p c : List (String × JsonValue)) :
    rootChange (diffObjGo p c ++ addedEntries p c) = none := by
  apply rootChange_eq_none
  intro e he
  rcases List.mem_append.1 he with h2 | h2
  · obtain ⟨k, rest, hp2, _⟩ := diffObjGo_shape p c e h2
    rw [hp2]
    simp
  · obtain ⟨k, v, hp2, _⟩ := addedEntries_shape p c e h2
    rw [hp2]
    simp

/-- The diff of two arrays never replaces the compared root. -/
theorem rootChange_diffE_arr (l c : List JsonValue) :
    rootChange (diffArrGo 0 l c) = none := by
  apply rootChange_eq_none
  intro e he
  obtain ⟨j, rest, hp2, _⟩ := diffArrGo_shape l c 0 e he
  rw [hp2]
  simp

/-- With no root replacement, patching an object proceeds structurally. -/
theorem patch_obj_eq {p : List (String × JsonValue)} {es : List DEntry}
    (h : rootChange es = none) :
    patch (.obj p) es = .obj (patchObjGo p es ++ addsOf es) := by
  show (rootChange es).getD (.obj (patchObjGo p es ++ addsOf es))
    = .obj (patchObjGo p es ++ addsOf es)
  rw [h]
  rfl

/-- With no root replacement, patching an array proceeds structurally. -/
theorem patch_arr_eq {l : List JsonValue} {es : List DEntry}
    (h : rootChange es = none) :
    patch (.arr l) es = .arr (patchArrGo 0 l es ++ listAddsOf es) := by
  show (rootChange es).getD (.arr (patchArrGo 0 l es ++ listAddsOf es))
    = .arr (patchArrGo 0 l es ++ listAddsOf es)
  rw [h]
  rfl

/-- Patching with a fallback diff (two values that are not both objects and
not both arrays) yields the `current` value, or keeps `previous` when the
two are identical. -/
theorem patch_diffE_fallback {a b : JsonValue}
    (hd : diffE a b = (if jeq a b = true then ([] : List DEntry)
      else [([], DOp.change a b)]))
    (hwb : wfB b = true) : jeq (patch a (diffE a b)) b = true := by
  rw [hd]
  by_cases hj : jeq a b = true
  · rw [if_pos hj, patch_nil]
    exact hj
  · rw [if_neg hj]
    rw [show patch a [([], DOp.change a b)] = b from by cases a <;> rfl]
    exact jeq_refl b hwb

/-- Patching an object with its own diff against `current` rebuilds an
object structurally identical to `current`. -/
theorem patch_diffObj {p c : List (String × JsonValue)}
    (ihv : ∀ kv ∈ p, ∀ b, wfB kv.2 = true → wfB b = true →
      jeq (patch kv.2 (diffE kv.2 b)) b = true)
    (hwa : wfB (.obj p) = true) (hwb : wfB (.obj c) = true) :
    jeq (patch (.obj p) (diffE (.obj p) (.obj c))) (.obj c) = true := by
  have hwa2 : keysNodup (p.map Prod.fst) = true ∧ wfBObj p = true := by
    simpa [wfB, Bool.and_eq_true] using hwa
  have hwb2 : keysNodup (c.map Prod.fst) = true ∧ wfBObj c = true := by
    simpa [wfB, Bool.and_eq_true] using hwb
  have hes : diffE (.obj p) (.obj c) = diffObjGo p c ++ addedEntries p c := rfl
  rw [hes, patch_obj_eq (rootChange_diffE_obj p c)]
  have hsel : ∀ kv ∈ p,
      selSeg (Seg.fld kv.1) (diffObjGo p c ++ addedEntries p c)
        = (match List.lookup kv.1 c with
           | none => [([], DOp.remove kv.2)]
           | some cv => diffE kv.2 cv) := by
    intro kv hkv
    rw [selSeg_append,
      selSeg_addedEntries
        ((lookup_isSome_iff _ _).2 (List.mem_map_of_mem Prod.fst hkv)),
      List.append_nil]
    exact selSeg_diffObjGo hwa2.1 hkv
  rw [patchObjGo_spec (fun kv =>
      match List.lookup kv.1 c with
      | none => [([], DOp.remove kv.2)]
      | some cv => diffE kv.2 cv) hsel,
    addsOf_append, addsOf_diffObjGo, List.nil_append, addsOf_addedEntries]
  simp only [jeq, Bool.and_eq_true]
  constructor
  · rw [jeqObjGo_iff]
    intro kv hkv
    rcases List.mem_append.1 hkv with hmem | hmem
    · obtain ⟨kv0, hkv0, hg⟩ := List.mem_filterMap.1 hmem
      revert hg
      cases hl : List.lookup kv0.1 c with
      | none =>
        rw [show hasRootRemove [([], DOp.remove kv0.2)] = true from rfl]
        intro hg
        simp at hg
      | some cv =>
        rw [hasRootRemove_diffE]
        simp only [Bool.false_eq_true, if_false, Option.some_inj]
        intro hg
        rw [← hg]
        simp only [hl]
        exact ihv kv0 hkv0 cv (wfBObj_mem hwa2.2 hkv0)
          (wfBObj_mem hwb2.2 (lookup_mem hl))
    · obtain ⟨kv0, hkv0, hh⟩ := List.mem_filterMap.1 hmem
      revert hh
      cases hl2 : List.lookup kv0.1 p with
      | some _ => intro hh; cases hh
      | none =>
        simp only [Option.some_inj]
        intro hh
        rw [← hh]
        rw [lookup_of_mem_nodup hkv0 hwb2.1]
        exact jeq_refl kv0.2 (wfBObj_mem hwb2.2 hkv0)
  · simp only [keysIn, List.all_eq_true]
    intro kv hkv
    rw [lookup_isSome_iff, List.map_append]
    apply List.mem_append.2
    cases hl : List.lookup kv.1 p with
    | some pv =>
      left
      have hlc : List.lookup kv.1 c = some kv.2 :=
        lookup_of_mem_nodup hkv hwb2.1
      refine List.mem_map.2 ⟨(kv.1, patch pv (diffE pv kv.2)), ?_, rfl⟩
      refine List.mem_filterMap.2 ⟨(kv.1, pv), lookup_mem hl, ?_⟩
      rw [show (kv.1, pv).1 = kv.1 from rfl, hlc, hasRootRemove_diffE]
      simp
    | none =>
      right
      refine List.mem_map.2 ⟨kv, ?_, rfl⟩
      refine List.mem_filterMap.2 ⟨kv, hkv, ?_⟩
      rw [hl]

/-- Modelled from the spec (§8): re-applying all five entry classes of
`diff(previous, current)` to `previous` rebuilds a value structurally
identical to `current`, for values with duplicate-free object keys. -/
theorem patch_diffE_jeq : ∀ a b, wfB a = true → wfB b = true →
    jeq (patch a (diffE a b)) b = true := by
  intro a
  induction a using JsonValue.inductOn with
  | h0 =>
    intro b hwa hwb
    exact patch_diffE_fallback (by cases b <;> simp only [diffE]) hwb
  | h1 x =>
    intro b hwa hwb
    exact patch_diffE_fallback (by cases b <;> simp only [diffE]) hwb
  | h2 x =>
    intro b hwa hwb
    exact patch_diffE_fallback (by cases b <;> simp only [diffE]) hwb
  | h3 x =>
    intro b hwa hwb
    exact patch_diffE_fallback (by cases b <;> simp only [diffE]) hwb
  | h4 l ih =>
    intro b hwa hwb
    cases b with
    | arr c =>
      have hes : diffE (.arr l) (.arr c) = diffArrGo 0 l c := rfl
      rw [hes, patch_arr_eq (rootChange_diffE_arr l c)]
      show jeqList (patchArrGo 0 l (diffArrGo 0 l c)
        ++ listAddsOf (diffArrGo 0 l c)) c = true
      exact patch_diffArrGo ih 0 c (by simpa [wfB] using hwa)
        (by simpa [wfB] using hwb)
    | null => exact patch_diffE_fallback (by simp only [diffE]) hwb
    | bool x => exact patch_diffE_fallback (by simp only [diffE]) hwb
    | num x => exact patch_diffE_fallback (by simp only [diffE]) hwb
    | str x => exact patch_diffE_fallback (by simp only [diffE]) hwb
    | obj c => exact patch_diffE_fallback (by simp only [diffE]) hwb
  | h5 p ih =>
    intro b hwa hwb
    cases b with
    | obj c => exact patch_diffObj ih hwa hwb
    | null => exact patch_diffE_fallback (by simp only [diffE]) hwb
    | bool x => exact patch_diffE_fallback (by simp only [diffE]) hwb
    | num x => exact patch_diffE_fallback (by simp only [diffE]) hwb
    | str x => exact patch_diffE_fallback (by simp only [diffE]) hwb
    | arr c => exact patch_diffE_fallback (by simp only [diffE]) hwb

/-- Step of the segment loop for a bracket segment with empty field
prefix: no `.get` is performed, the index logic applies to the current
value directly. -/
theorem applySegments_bracket_empty (v : JsonValue) (part t : String)
    (rest : List String) (hp : parsePart part = .bracket ("") t) :
    applySegments v (part :: rest)
      = (if t == "*" then
           match v with
           | .arr _ => applySegments v rest
           | _ => .ok emptyObj
         else
           match pyInt t with
           | none => .ok emptyObj
           | some n =>
             match v with
             | .arr l =>
               if h : 0 ≤ n ∧ n.toNat < l.length
               then applySegments (l.get ⟨n.toNat, h.2⟩) rest
               else .ok emptyObj
             | _ => .ok emptyObj) := by
  simp only [applySegments]
  rw [hp]
  rfl

/-- Step of the segment loop for a bracket segment with a non-empty field
prefix on a value that is not a dict: `result.get` raises
`AttributeError`. -/
theorem applySegments_bracket_key_nonobj (v : JsonValue) (part k t : String)
    (rest : List String) (hp : parsePart part = .bracket k t)
    (hk : (k == "") = false) (hv : isObjB v = false) :
    applySegments v (part :: rest) = .error () := by
  simp only [applySegments]
  rw [hp]
  cases v with
  | obj kvs => simp [isObjB] at hv
  | null => simp [hk]
  | bool b => simp [hk]
  | num n => simp [hk]
  | str s => simp [hk]
  | arr l => simp [hk]

/-- Step of the segment loop for a bracket segment on a dict whose index
text is neither `*` nor parseable as an int: the caught `ValueError`
degrades to the empty Object, whatever the field prefix was. -/
theorem applySegments_bracket_badIdx_obj (kvs : List (String × JsonValue))
    (part k t : String) (rest : List String)
    (hp : parsePart part = .bracket k t) (ht : (t == "*") = false)
    (hpi : pyInt t = none) :
    applySegments (.obj kvs) (part :: rest) = .ok emptyObj := by
  simp only [applySegments]
  rw [hp]
  by_cases hk : (k == "") = true
  · simp [hk, ht, hpi]
  · simp only [Bool.not_eq_true] at hk
    simp [hk, ht, hpi]

/-- An index text that parses as an int is not the wildcard. -/
theorem pyInt_ne_star {t : String} {n : Int} (hpi : pyInt t = some n) :
    (t == "*") = false := by
  by_cases h2 : t = "*"
  · subst h2
    rw [show pyInt ("*") = none from rfl] at hpi
    cases hpi
  · simpa using h2

/-- An in-range exact index on an array selects that element and continues
with the remaining segments. -/
theorem applySegments_exact_in_range (l : List JsonValue) (part t : String)
    (n : Int) (rest : List String) (hp : parsePart part = .bracket ("") t)
    (hpi : pyInt t = some n) (h : 0 ≤ n ∧ n.toNat < l.length) :
    applySegments (.arr l) (part :: rest)
      = applySegments (l.get ⟨n.toNat, h.2⟩) rest := by
  rw [applySegments_bracket_empty _ _ _ _ hp,
    if_neg (by simp [pyInt_ne_star hpi]), hpi]
  show (if h2 : 0 ≤ n ∧ n.toNat < l.length
    then applySegments (l.get ⟨n.toNat, h2.2⟩) rest
    else Except.ok emptyObj) = applySegments (l.get ⟨n.toNat, h.2⟩) rest
  rw [dif_pos h]

/-- An out-of-range exact index on an array short-circuits to the empty
Object, ignoring the remaining segments. -/
theorem applySegments_exact_out_of_range (l : List JsonValue) (part t : String)
    (n : Int) (rest : List String) (hp : parsePart part = .bracket ("") t)
    (hpi : pyInt t = some n) (h : ¬ (0 ≤ n ∧ n.toNat < l.length)) :
    applySegments (.arr l) (part :: rest) = .ok emptyObj := by
  rw [applySegments_bracket_empty _ _ _ _ hp,
    if_neg (by simp [pyInt_ne_star hpi]), hpi]
  show (if h2 : 0 ≤ n ∧ n.toNat < l.length
    then applySegments (l.get ⟨n.toNat, h2.2⟩) rest
    else Except.ok emptyObj) = Except.ok emptyObj
  rw [dif_neg h]

/-- An exact index on a value that is not a list short-circuits to the
empty Object. -/
theorem applySegments_exact_nonarr (v : JsonValue) (part t : String)
    (n : Int) (rest : List String) (hp : parsePart part = .bracket ("") t)
    (hpi : pyInt t = some n) (hv : isArrB v = false) :
    applySegments v (part :: rest) = .ok emptyObj := by
  rw [applySegments_bracket_empty _ _ _ _ hp,
    if_neg (by simp [pyInt_ne_star hpi]), hpi]
  cases v with
  | arr l => simp [isArrB] at hv
  | null => rfl
  | bool b => rfl
  | num n2 => rfl
  | str s => rfl
  | obj kvs => rfl

/-- A path whose segments all avoid a field prefix before a bracket never
raises, whatever the value. -/
theorem applySegments_keyFree_ok :
    ∀ (parts : List String) (v : JsonValue),
      (∀ part ∈ parts, segKeyFree part = true) →
      ∃ r, applySegments v parts = Except.ok r := by
  intro parts
  induction parts with
  | nil => intro v _; exact ⟨v, rfl⟩
  | cons part rest ih =>
    intro v hsafe
    have hpart : segKeyFree part = true := hsafe part (List.mem_cons_self _ _)
    have hrest : ∀ p2 ∈ rest, segKeyFree p2 = true :=
      fun p2 h2 => hsafe p2 (List.mem_cons_of_mem _ h2)
    cases hp : parsePart part with
    | plain p =>
      simp only [applySegments]
      rw [hp]
      cases v with
      | obj kvs => exact ih (dictGet kvs p emptyObj) hrest
      | null => exact ⟨emptyObj, rfl⟩
      | bool b => exact ⟨emptyObj, rfl⟩
      | num n => exact ⟨emptyObj, rfl⟩
      | str s => exact ⟨emptyObj, rfl⟩
      | arr l => exact ⟨emptyObj, rfl⟩
    | bracket k t =>
      rw [segKeyFree, hp] at hpart
      have hk : k = "" := by simpa using hpart
      subst hk
      by_cases ht : (t == "*") = true
      · rw [applySegments_bracket_empty v part t rest hp, if_pos ht]
        cases v with
        | arr l => exact ih (.arr l) hrest
        | null => exact ⟨emptyObj, rfl⟩
        | bool b => exact ⟨emptyObj, rfl⟩
        | num n => exact ⟨emptyObj, rfl⟩
        | str s => exact ⟨emptyObj, rfl⟩
        | obj kvs => exact ⟨emptyObj, rfl⟩
      · simp only [Bool.not_eq_true] at ht
        cases hpi : pyInt t with
        | none =>
          rw [applySegments_bracket_empty v part t rest hp,
            if_neg (by simp [ht]), hpi]
          exact ⟨emptyObj, rfl⟩
        | some n =>
          cases v with
          | arr l =>
            by_cases hin : 0 ≤ n ∧ n.toNat < l.length
            · rw [applySegments_exact_in_range l part t n rest hp hpi hin]
              exact ih _ hrest
            · rw [applySegments_exact_out_of_range l part t n rest hp hpi hin]
              exact ⟨emptyObj, rfl⟩
          | null =>
            rw [applySegments_exact_nonarr .null part t n rest hp hpi rfl]
            exact ⟨emptyObj, rfl⟩
          | bool b =>
            rw [applySegments_exact_nonarr (.bool b) part t n rest hp hpi rfl]
            exact ⟨emptyObj, rfl⟩
          | num n2 =>
            rw [applySegments_exact_nonarr (.num n2) part t n rest hp hpi rfl]
            exact ⟨emptyObj, rfl⟩
          | str s =>
            rw [applySegments_exact_nonarr (.str s) part t n rest hp hpi rfl]
            exact ⟨emptyObj, rfl⟩
          | obj kvs =>
            rw [applySegments_exact_nonarr (.obj kvs) part t n rest hp hpi rfl]
            exact ⟨emptyObj, rfl⟩

/-! ## Claim theorems -/

/-- C1: for every JsonValue `X` (with duplicate-free object keys, as JSON
parsing guarantees), `diff(X, X)` is an empty DiffResult; and in general
`diff(previous, current)` is empty exactly when the two values are
structurally identical in the sense of `jeq` (same type tags, same object
keys with structurally identical values, same array lengths with
structurally identical elements position by position, scalar equality). -/
theorem claim_C1 :
    (∀ X, wfB X = true → diff X X = emptyDiff)
    ∧ (∀ p c, diff p c = emptyDiff ↔ jeq p c = true) := by
  constructor
  · intro X hwf
    rw [diff_eq_empty_iff, diffE_nil_iff]
    exact jeq_refl X hwf
  · intro p c
    rw [diff_eq_empty_iff, diffE_nil_iff]

/-- Witness for C1 at a concrete nested value and a concrete pair. -/
theorem claim_C1_witness :
    wfB (.obj [("a", .num 1), ("b", .arr [.null, .str ("x")])]) = true
    ∧ diff (.obj [("a", .num 1), ("b", .arr [.null, .str ("x")])])
        (.obj [("a", .num 1), ("b", .arr [.null, .str ("x")])]) = emptyDiff
    ∧ (diff (.num 1) (.num 2) = emptyDiff ↔ jeq (.num 1) (.num 2) = true) :=
  ⟨rfl, claim_C1.1 _ rfl, claim_C1.2 (.num 1) (.num 2)⟩

/-- C7: array diffing is position-indexed and order-sensitive: `[1,2]`
against `[2,1]` reports changed entries at indices 0 and 1 (not equality),
and `[1,2,3]` against `[1,2]` reports exactly one entry, `list_removed` at
path `[2]` with value 3, with every other bucket empty. -/
theorem claim_C7 :
    diff (.arr [.num 1, .num 2]) (.arr [.num 2, .num 1])
      = { added := [], removed := [],
          changed := [("[0]", .num 1, .num 2), ("[1]", .num 2, .num 1)],
          listAdded := [], listRemoved := [] }
    ∧ diff (.arr [.num 1, .num 2, .num 3]) (.arr [.num 1, .num 2])
      = { added := [], removed := [], changed := [],
          listAdded := [], listRemoved := [("[2]", .num 3)] } :=
  ⟨rfl, rfl⟩

/-- Counterexample to C8 as stated.  First part: for previous `[1]` and
current `[1,2]` the `added`, `removed` and `changed` buckets are all empty
(the only entry is in `list_added`), so applying just those three classes of
entries to the previous value leaves it unchanged and cannot rebuild the
longer current value.  Second part: two objects with the same keys and
values in a different insertion order have a completely empty diff, yet are
not equal as ordered values, so no application of diff entries can rebuild
`current` "exactly" — only up to structural identity. -/
theorem claim_C8_counterexample :
    ((diff (.arr [.num 1]) (.arr [.num 1, .num 2])).added = []
      ∧ (diff (.arr [.num 1]) (.arr [.num 1, .num 2])).removed = []
      ∧ (diff (.arr [.num 1]) (.arr [.num 1, .num 2])).changed = []
      ∧ (diff (.arr [.num 1]) (.arr [.num 1, .num 2])).listAdded
          = [("[1]", .num 2)]
      ∧ JsonValue.arr [.num 1] ≠ JsonValue.arr [.num 1, .num 2])
    ∧ (diff (.obj [("a", .num 1), ("b", .num 2)])
          (.obj [("b", .num 2), ("a", .num 1)]) = emptyDiff
      ∧ JsonValue.obj [("a", .num 1), ("b", .num 2)]
          ≠ JsonValue.obj [("b", .num 2), ("a", .num 1)]) :=
  ⟨⟨rfl, rfl, rfl, rfl, by simp⟩, ⟨rfl, by simp⟩⟩

/-- C8 (amended): re-applying all five entry classes of
`diff(previous, current)` — `added`, `removed`, `changed`, `list_added`
and `list_removed`, as performed by `patch` on the relative-path entries —
to the previous value rebuilds a value structurally identical to the
current value, for values with duplicate-free object keys. -/
theorem claim_C8 : ∀ A B, wfB A = true → wfB B = true →
    jeq (patch A (diffE A B)) B = true :=
  patch_diffE_jeq

/-- Witness for C8 at a concrete object-to-array change. -/
theorem claim_C8_witness :
    wfB (.obj [("a", .num 1)]) = true
    ∧ wfB (.arr [.num 2, .str ("x")]) = true
    ∧ jeq (patch (.obj [("a", .num 1)])
        (diffE (.obj [("a", .num 1)]) (.arr [.num 2, .str ("x")])))
        (.arr [.num 2, .str ("x")]) = true :=
  ⟨rfl, rfl, claim_C8 _ _ rfl rfl⟩

/-- Counterexample to C4 as stated: `filter_json` with a configured key
filter returns a scalar completely unchanged (the key-filter branches only
fire for lists and dicts), rather than the absent result the claim
demands. -/
theorem claim_C4_counterexample :
    filterJson none (some ("k")) none (.num 5) = .ok (.num 5)
    ∧ (Except.ok (JsonValue.num 5) : Except Unit JsonValue)
        ≠ .ok JsonValue.null :=
  ⟨rfl, by simp⟩

/-- C4 (amended): the recursive key search `_find_and_filter_key` does
return absent (`None`) on every value that is neither an Array nor an
Object, so scalars met during the recursive search contribute nothing; but
the top-level key-filter pass of `filter_json` leaves a scalar input value
unchanged. -/
theorem claim_C4 : ∀ (v : JsonValue) (key : String) (fv : Option String),
    isObjB v = false → isArrB v = false →
    findAndFilterKey v key fv = .null
    ∧ (¬ key = "" → filterJson none (some key) fv v = .ok v) := by
  intro v key fv ho ha
  constructor
  · cases v with
    | obj kvs => simp [isObjB] at ho
    | arr l => simp [isArrB] at ha
    | null => rfl
    | bool b => rfl
    | num n => rfl
    | str s => rfl
  · intro hk
    have hkb : (key == "") = false := by simpa using hk
    cases v with
    | obj kvs => simp [isObjB] at ho
    | arr l => simp [isArrB] at ha
    | null => simp [filterJson, strTruthy, hkb]
    | bool b => simp [filterJson, strTruthy, hkb]
    | num n => simp [filterJson, strTruthy, hkb]
    | str s => simp [filterJson, strTruthy, hkb]

/-- Witness for C4 at a concrete string scalar. -/
theorem claim_C4_witness :
    isObjB (.str ("x")) = false ∧ isArrB (.str ("x")) = false ∧ ¬ "k" = ""
    ∧ findAndFilterKey (.str ("x")) "k" none = .null
    ∧ filterJson none (some ("k")) none (.str ("x")) = .ok (.str ("x")) :=
  ⟨rfl, rfl, by decide, (claim_C4 (.str ("x")) "k" none rfl rfl).1,
    (claim_C4 (.str ("x")) "k" none rfl rfl).2 (by decide)⟩

/-- C6: the key filter on an Array keeps exactly the elements that are
Objects containing the key whose stored value matches (per `keyPred`,
`str`-rendered comparison when a match value is configured), as a filter of
the original list — hence an Array, possibly empty, preserving the original
relative order (a sublist); on the two-element example only the matching
element survives. -/
theorem claim_C6 :
    (∀ (l : List JsonValue) (key : String) (fv : Option String),
        ¬ key = "" →
        filterJson none (some key) fv (.arr l)
          = .ok (.arr (l.filter (keyPred key fv)))
        ∧ (l.filter (keyPred key fv)).Sublist l)
    ∧ filterJson none (some ("s")) (some ("active"))
        (.arr [.obj [("id", .num 1), ("s", .str ("active"))],
          .obj [("id", .num 2), ("s", .str ("off"))]])
      = .ok (.arr [.obj [("id", .num 1), ("s", .str ("active"))]]) := by
  refine ⟨?_, rfl⟩
  intro l key fv hk
  have hkb : (key == "") = false := by simpa using hk
  exact ⟨by simp [filterJson, strTruthy, hkb], List.filter_sublist l⟩

/-- Witness for C6 at a concrete list and key. -/
theorem claim_C6_witness :
    ¬ "id" = ""
    ∧ filterJson none (some ("id")) none
        (.arr [.num 3, .obj [("id", .num 1)]])
      = .ok (.arr ([.num 3, .obj [("id", .num 1)]].filter (keyPred ("id") none)))
    ∧ ([.num 3, .obj [("id", .num 1)]].filter (keyPred ("id") none)).Sublist
        [.num 3, .obj [("id", .num 1)]] :=
  ⟨by decide, (claim_C6.1 _ ("id") none (by decide)).1,
    (claim_C6.1 _ ("id") none (by decide)).2⟩

/-- C10: the key/value match compares the configured match value against
the Python `str()` rendering of the stored value, not its JSON text: `true`
matches `"True"` and not `"true"`, `null` matches `"None"` and not
`"null"`, and the number 1 matches `"1"`; so a match value equal to the
JSON text (`"true"`, `"null"`) fails while the Python rendering matches. -/
theorem claim_C10 :
    filterJson none (some ("k")) (some ("true")) (.obj [("k", .bool true)])
      = .ok (.obj [])
    ∧ filterJson none (some ("k")) (some ("True")) (.obj [("k", .bool true)])
      = .ok (.obj [("k", .bool true)])
    ∧ filterJson none (some ("k")) (some ("null")) (.obj [("k", .null)])
      = .ok (.obj [])
    ∧ filterJson none (some ("k")) (some ("None")) (.obj [("k", .null)])
      = .ok (.obj [("k", .null)])
    ∧ filterJson none (some ("k")) (some ("1")) (.obj [("k", .num 1)])
      = .ok (.obj [("k", .num 1)])
    ∧ pyStr (.bool true) = "True" ∧ pyStr .null = "None"
    ∧ pyStr (.num 1) = "1" :=
  ⟨rfl, rfl, rfl, rfl, rfl, rfl, rfl, rfl⟩

/-- Counterexample to C2 as stated: the path `a[0]` applied to the list
`[1]` raises `AttributeError` (from `result.get("a", {})` on a list)
instead of degrading to an empty Object. -/
theorem claim_C2_counterexample :
    applyPathFilter (.arr [.num 1]) "a[0]" = .error () := rfl

/-- C2 (amended): the path filter never raises on a path whose segments all
lack a field prefix before a bracket pair, whatever the value; a bracketed
segment with malformed (non-wildcard, unparseable) index text processed
while the current value is an Object — such as `items[abc]` — returns the
empty Object without failing; but a bracketed segment with a non-empty
field prefix processed while the current value is not an Object raises
`AttributeError`. -/
theorem claim_C2 :
    (∀ (v : JsonValue) (path : String),
        (∀ part ∈ pySplit path '.', segKeyFree part = true) →
        ∃ r, applyPathFilter v path = Except.ok r)
    ∧ (∀ (kvs : List (String × JsonValue)) (part k t : String)
          (rest : List String),
        parsePart part = .bracket k t → (t == "*") = false → pyInt t = none →
        applySegments (.obj kvs) (part :: rest) = .ok emptyObj)
    ∧ (∀ (v : JsonValue) (part k t : String) (rest : List String),
        parsePart part = .bracket k t → (k == "") = false → isObjB v = false →
        applySegments v (part :: rest) = .error ()) := by
  refine ⟨?_, ?_, ?_⟩
  · intro v path h
    exact applySegments_keyFree_ok (pySplit path '.') v h
  · intro kvs part k t rest hp ht hpi
    exact applySegments_bracket_badIdx_obj kvs part k t rest hp ht hpi
  · intro v part k t rest hp hk hv
    exact applySegments_bracket_key_nonobj v part k t rest hp hk hv

/-- Witness for C2 at concrete paths and values. -/
theorem claim_C2_witness :
    (∃ r, applyPathFilter (.num 3) "a.[0].x" = Except.ok r)
    ∧ applySegments (.obj [("items", .arr [.num 1])]) ["items[abc]"]
        = .ok emptyObj
    ∧ applySegments (.arr [.num 1]) ["items[abc]"] = .error () :=
  ⟨claim_C2.1 (.num 3) ("a.[0].x") (by decide),
    claim_C2.2.1 _ ("items[abc]") ("items") ("abc") [] (by decide) (by decide)
      (by decide),
    claim_C2.2.2 _ ("items[abc]") ("items") ("abc") [] (by decide) (by decide)
      rfl⟩

/-- Counterexample to C3 as stated: searching `{"outer": {"k": "bad",
"inner": {"k": "good"}}}` for key `k` with match value `good`, the nested
object `{"k": "bad", "inner": ...}` contains the key directly with a
non-matching value, yet it does not yield an empty Object: its descendants
are searched further and the deeper match is rebuilt and contributed.  The
second conjunct evaluates the recursive call on that nested object
directly. -/
theorem claim_C3_counterexample :
    findAndFilterKey
      (.obj [("outer", .obj [("k", .str ("bad")),
        ("inner", .obj [("k", .str ("good"))])])])
      "k" (some ("good"))
      = .obj [("outer", .obj [("inner", .obj [("k", .str ("good"))])])]
    ∧ findAndFilterKey
        (.obj [("k", .str ("bad")), ("inner", .obj [("k", .str ("good"))])])
        "k" (some ("good"))
      = .obj [("inner", .obj [("k", .str ("good"))])] :=
  ⟨rfl, rfl⟩

/-- C3 (amended): at every level of the recursive key search, an Object
containing the key directly returns the singleton when the stringified
value matches; when it does not match, the branch falls through to the
recursive search of all its items (the mismatching value included), so it
contributes the rebuilt results of any deeper matches and yields absent
only if nothing below matches. -/
theorem claim_C3 : ∀ (kvs : List (String × JsonValue)) (key : String)
    (fv : Option String) (dv : JsonValue),
    List.lookup key kvs = some dv →
    (fvMatch fv dv = true →
      findAndFilterKey (.obj kvs) key fv = .obj [(key, dv)])
    ∧ (fvMatch fv dv = false →
      findAndFilterKey (.obj kvs) key fv
        = (match ffkObj kvs key fv with
           | [] => JsonValue.null
           | r => .obj r)) := by
  intro kvs key fv dv hl
  constructor
  · intro hm
    simp only [findAndFilterKey]
    rw [hl]
    show (if fvMatch fv dv = true then JsonValue.obj [(key, dv)]
      else match ffkObj kvs key fv with
           | [] => JsonValue.null
           | r => JsonValue.obj r) = JsonValue.obj [(key, dv)]
    rw [hm]
    simp
  · intro hm
    simp only [findAndFilterKey]
    rw [hl]
    show (if fvMatch fv dv = true then JsonValue.obj [(key, dv)]
      else match ffkObj kvs key fv with
           | [] => JsonValue.null
           | r => JsonValue.obj r)
      = (match ffkObj kvs key fv with
         | [] => JsonValue.null
         | r => JsonValue.obj r)
    rw [hm]
    simp

/-- Witness for C3 at the concrete mismatching object. -/
theorem claim_C3_witness :
    List.lookup ("k") [("k", JsonValue.str ("bad")),
        ("inner", JsonValue.obj [("k", JsonValue.str ("good"))])]
      = some (.str ("bad"))
    ∧ fvMatch (some ("good")) (.str ("bad")) = false
    ∧ findAndFilterKey
        (.obj [("k", .str ("bad")), ("inner", .obj [("k", .str ("good"))])])
        "k" (some ("good"))
      = (match ffkObj [("k", .str ("bad")),
            ("inner", .obj [("k", .str ("good"))])] "k" (some ("good")) with
         | [] => JsonValue.null
         | r => JsonValue.obj r) :=
  ⟨rfl, rfl,
    (claim_C3 [("k", JsonValue.str ("bad")),
        ("inner", JsonValue.obj [("k", JsonValue.str ("good"))])]
      "k" (some ("good")) (.str ("bad")) rfl).2 rfl⟩

/-- C5: the path filter processes segments left to right seeded with the
root value; a pure index segment whose text parses as the integer `n`
selects element `n` of an Array when `0 ≤ n < length` and continues with
the remaining segments, otherwise (out of range, or current value not an
Array) short-circuits to the empty Object; and on
`{"a": {"b": [10, 20, 30]}}` the path `a.b[1]` returns `20`, the path
`a.b[*]` returns `[10, 20, 30]`, and the path `a.x[0]` returns the empty
Object. -/
theorem claim_C5 :
    (∀ (l : List JsonValue) (part t : String) (n : Int) (rest : List String)
        (_hp : parsePart part = .bracket ("") t) (_hpi : pyInt t = some n)
        (h : 0 ≤ n ∧ n.toNat < l.length),
        applySegments (.arr l) (part :: rest)
          = applySegments (l.get ⟨n.toNat, h.2⟩) rest)
    ∧ (∀ (l : List JsonValue) (part t : String) (n : Int)
          (rest : List String),
        parsePart part = .bracket ("") t → pyInt t = some n →
        ¬ (0 ≤ n ∧ n.toNat < l.length) →
        applySegments (.arr l) (part :: rest) = .ok emptyObj)
    ∧ (∀ (v : JsonValue) (part t : String) (n : Int) (rest : List String),
        parsePart part = .bracket ("") t → pyInt t = some n →
        isArrB v = false →
        applySegments v (part :: rest) = .ok emptyObj)
    ∧ applyPathFilter
        (.obj [("a", .obj [("b", .arr [.num 10, .num 20, .num 30])])])
        "a.b[1]" = .ok (.num 20)
    ∧ applyPathFilter
        (.obj [("a", .obj [("b", .arr [.num 10, .num 20, .num 30])])])
        "a.b[*]" = .ok (.arr [.num 10, .num 20, .num 30])
    ∧ applyPathFilter
        (.obj [("a", .obj [("b", .arr [.num 10, .num 20, .num 30])])])
        "a.x[0]" = .ok emptyObj := by
  refine ⟨?_, ?_, ?_, rfl, rfl, rfl⟩
  · intro l part t n rest hp hpi h
    exact applySegments_exact_in_range l part t n rest hp hpi h
  · intro l part t n rest hp hpi h
    exact applySegments_exact_out_of_range l part t n rest hp hpi h
  · intro v part t n rest hp hpi hv
    exact applySegments_exact_nonarr v part t n rest hp hpi hv

/-- Witness for C5 at concrete index segments. -/
theorem claim_C5_witness :
    applySegments (.arr [.num 7, .num 8]) ["[1]"]
      = applySegments (.num 8) []
    ∧ applySegments (.arr [.num 7]) ["[5]"] = .ok emptyObj
    ∧ applySegments (.num 7) ["[0]"] = .ok emptyObj :=
  ⟨claim_C5.1 [.num 7, .num 8] ("[1]") ("1") 1 [] (by decide) (by decide)
      ⟨by decide, by decide⟩,
    claim_C5.2.1 [.num 7] ("[5]") ("5") 5 [] (by decide) (by decide)
      (by decide),
    claim_C5.2.2.1 (.num 7) ("[0]") ("0") 0 [] (by decide) (by decide) rfl⟩

/-- When `display_diff` hands a pair to `DeepDiff`, the two compared values
are exactly the freshly filtered previous and current values. -/
theorem displayDiffModel_diffed {fp fk fv : Option String}
    {cur prev pf cf : JsonValue}
    (h : displayDiffModel fp fk fv cur prev = .ok (.diffed pf cf)) :
    filterJson fp fk fv prev = .ok pf ∧ filterJson fp fk fv cur = .ok cf := by
  simp only [displayDiffModel] at h
  cases hc : filterJson fp fk fv cur with
  | error e => simp [hc] at h
  | ok curF =>
    simp only [hc] at h
    by_cases ht : pyTruthy prev = true
    · simp only [ht, if_true] at h
      cases hp : filterJson fp fk fv prev with
      | error e => simp [hp] at h
      | ok prevF =>
        simp only [hp] at h
        cases prevF with
        | null => simp at h
        | bool b =>
          simp only [Except.ok.injEq, DisplayOut.diffed.injEq] at h
          obtain ⟨h1, h2⟩ := h
          subst h1
          subst h2
          exact ⟨rfl, rfl⟩
        | num n =>
          simp only [Except.ok.injEq, DisplayOut.diffed.injEq] at h
          obtain ⟨h1, h2⟩ := h
          subst h1
          subst h2
          exact ⟨rfl, rfl⟩
        | str s =>
          simp only [Except.ok.injEq, DisplayOut.diffed.injEq] at h
          obtain ⟨h1, h2⟩ := h
          subst h1
          subst h2
          exact ⟨rfl, rfl⟩
        | arr l =>
          simp only [Except.ok.injEq, DisplayOut.diffed.injEq] at h
          obtain ⟨h1, h2⟩ := h
          subst h1
          subst h2
          exact ⟨rfl, rfl⟩
        | obj kvs =>
          simp only [Except.ok.injEq, DisplayOut.diffed.injEq] at h
          obtain ⟨h1, h2⟩ := h
          subst h1
          subst h2
          exact ⟨rfl, rfl⟩
    · simp only [Bool.not_eq_true] at ht
      simp [ht] at h

/-- A successful non-`None` tick with a successful display computes the
display against the held previous value and replaces both held and
persisted state with the raw fetched value. -/
theorem tick_ne_null_ok {fp fk fv : Option String} {s : WState}
    {fetched : JsonValue} {dout : DisplayOut} (h : fetched ≠ .null)
    (hdm : displayDiffModel fp fk fv fetched s.prev = .ok dout) :
    tick fp fk fv s fetched
      = .ok ({ prev := fetched, disk := fetched }, some dout) := by
  obtain ⟨sp, sd⟩ := s
  cases fetched with
  | null => exact absurd rfl h
  | bool b => cases sp <;> (simp only [tick]; rw [hdm])
  | num n => cases sp <;> (simp only [tick]; rw [hdm])
  | str t => cases sp <;> (simp only [tick]; rw [hdm])
  | arr l => cases sp <;> (simp only [tick]; rw [hdm])
  | obj kvs => cases sp <;> (simp only [tick]; rw [hdm])

/-- A non-`None` tick whose display raises propagates the exception. -/
theorem tick_ne_null_err {fp fk fv : Option String} {s : WState}
    {fetched : JsonValue} {e : Unit} (h : fetched ≠ .null)
    (hdm : displayDiffModel fp fk fv fetched s.prev = .error e) :
    tick fp fk fv s fetched = .error e := by
  obtain ⟨sp, sd⟩ := s
  cases fetched with
  | null => exact absurd rfl h
  | bool b => cases sp <;> (simp only [tick]; rw [hdm])
  | num n => cases sp <;> (simp only [tick]; rw [hdm])
  | str t => cases sp <;> (simp only [tick]; rw [hdm])
  | arr l => cases sp <;> (simp only [tick]; rw [hdm])
  | obj kvs => cases sp <;> (simp only [tick]; rw [hdm])

/-- C9: after every successful fetch tick, both the held previous value and
the persisted value are set to the raw unfiltered fetched value, never a
filtered projection; and whenever the tick diffs, the two values handed to
the diff are the key/path filters applied fresh to the held previous value
and to the newly fetched value. -/
theorem claim_C9 : ∀ (fp fk fv : Option String) (s : WState)
    (fetched : JsonValue) (s2 : WState) (out : Option DisplayOut),
    fetched ≠ .null →
    tick fp fk fv s fetched = .ok (s2, out) →
    (s2.prev = fetched ∧ s2.disk = fetched)
    ∧ (∀ pf cf, out = some (.diffed pf cf) →
        filterJson fp fk fv s.prev = .ok pf
        ∧ filterJson fp fk fv fetched = .ok cf) := by
  intro fp fk fv s fetched s2 out hnn ht
  cases hdm : displayDiffModel fp fk fv fetched s.prev with
  | error e =>
    rw [tick_ne_null_err hnn hdm] at ht
    cases ht
  | ok dout =>
    rw [tick_ne_null_ok hnn hdm] at ht
    simp only [Except.ok.injEq, Prod.mk.injEq] at ht
    obtain ⟨hs2, hout⟩ := ht
    refine ⟨by rw [← hs2]; exact ⟨rfl, rfl⟩, ?_⟩
    intro pf cf hpc
    rw [← hout] at hpc
    simp only [Option.some_inj] at hpc
    rw [hpc] at hdm
    exact displayDiffModel_diffed hdm

/-- Witness for C9 at a concrete tick that diffs two numbers. -/
theorem claim_C9_witness :
    (JsonValue.num 2 ≠ JsonValue.null)
    ∧ tick none none none ⟨.num 1, .num 1⟩ (.num 2)
        = .ok (⟨.num 2, .num 2⟩, some (.diffed (.num 1) (.num 2)))
    ∧ ((⟨.num 2, .num 2⟩ : WState).prev = .num 2
        ∧ (⟨.num 2, .num 2⟩ : WState).disk = .num 2)
    ∧ (filterJson none none none (.num 1) = .ok (.num 1)
        ∧ filterJson none none none (.num 2) = .ok (.num 2)) := by
  refine ⟨by simp, rfl, ?_, ?_⟩
  · exact (claim_C9 none none none ⟨.num 1, .num 1⟩ (.num 2)
      ⟨.num 2, .num 2⟩ (some (.diffed (.num 1) (.num 2)))
      (by simp) rfl).1
  · exact (claim_C9 none none none ⟨.num 1, .num 1⟩ (.num 2)
      ⟨.num 2, .num 2⟩ (some (.diffed (.num 1) (.num 2)))
      (by simp) rfl).2 (.num 1) (.num 2) rfl

end Jsondiff
